import Mathlib

set_option maxHeartbeats 1000000
set_option maxRecDepth 4000

namespace DevSquad

/-- Character lists model Python strings throughout this development
(the repository manipulates text with `str` slicing, `in`, `find`, `rfind`,
`startswith` and regular expressions). -/
abbrev Str := List Char

/-- Python `s.startswith(pat)`: `hasPre pat s` is true when `pat` is a
leading segment of `s`. -/
def hasPre : Str → Str → Bool
  | [], _ => true
  | _ :: _, [] => false
  | p :: ps, c :: cs => p == c && hasPre ps cs

theorem hasPre_iff_append {pat s : Str} :
    hasPre pat s = true ↔ ∃ t, s = pat ++ t := by
  induction pat generalizing s with
  | nil => simp [hasPre]
  | cons p ps ih =>
    cases s with
    | nil => simp [hasPre]
    | cons c cs =>
      simp only [hasPre, Bool.and_eq_true, beq_iff_eq, ih, List.cons_append]
      constructor
      · rintro ⟨rfl, t, rfl⟩; exact ⟨t, rfl⟩
      · rintro ⟨t, h⟩
        injection h with h1 h2
        exact ⟨h1.symm, t, h2⟩

theorem hasPre_length {pat s : Str} (h : hasPre pat s = true) :
    pat.length ≤ s.length := by
  rcases hasPre_iff_append.mp h with ⟨t, rfl⟩
  simp

theorem hasPre_ne_nil {pat s : Str} (h : hasPre pat s = true)
    (hp : pat ≠ []) : s ≠ [] := by
  rcases hasPre_iff_append.mp h with ⟨t, rfl⟩
  cases pat with
  | nil => exact absurd rfl hp
  | cons a l => simp

theorem hasPre_append_right {pat s : Str} (u : Str)
    (h : hasPre pat s = true) : hasPre pat (s ++ u) = true := by
  rcases hasPre_iff_append.mp h with ⟨t, rfl⟩
  exact hasPre_iff_append.mpr ⟨t ++ u, by simp⟩

theorem hasPre_take {pat s : Str} (h : hasPre pat s = true) :
    s.take pat.length = pat := by
  rcases hasPre_iff_append.mp h with ⟨t, rfl⟩
  simp

theorem hasPre_of_append_of_le {pat s u : Str}
    (h : hasPre pat (s ++ u) = true) (hle : pat.length ≤ s.length) :
    hasPre pat s = true := by
  have h1 : (s ++ u).take pat.length = pat := hasPre_take h
  have h2 : (s ++ u).take pat.length = s.take pat.length := by
    rw [List.take_append_eq_append_take]
    have : pat.length - s.length = 0 := by omega
    simp [this]
  refine hasPre_iff_append.mpr ⟨s.drop pat.length, ?_⟩
  conv_lhs => rw [← List.take_append_drop pat.length s]
  rw [← h2, h1]

theorem hasPre_get? {pat s : Str} (h : hasPre pat s = true)
    {d : Nat} (hd : d < pat.length) : s.get? d = pat.get? d := by
  rcases hasPre_iff_append.mp h with ⟨t, rfl⟩
  exact List.get?_append hd

/-- Python `s.find(pat)` restricted to success as an `Option`: index of the
first occurrence of `pat` in `s`. -/
def findSub? (pat : Str) : Str → Option Nat
  | [] => if hasPre pat [] then some 0 else none
  | c :: t =>
    if hasPre pat (c :: t) then some 0
    else (findSub? pat t).map (· + 1)

/-- Python `pat in s`. -/
def containsSub (pat s : Str) : Bool := (findSub? pat s).isSome

theorem findSub?_some_hasPre {pat s : Str} {i : Nat}
    (h : findSub? pat s = some i) : hasPre pat (s.drop i) = true := by
  induction s generalizing i with
  | nil =>
    simp only [findSub?] at h
    split at h
    · cases h; simpa using ‹hasPre pat [] = true›
    · exact absurd h (by simp)
  | cons c t ih =>
    simp only [findSub?] at h
    split at h
    · cases h; simpa using ‹_›
    · cases hi : findSub? pat t with
      | none => rw [hi] at h; simp at h
      | some j =>
        rw [hi] at h
        simp only [Option.map_some'] at h
        cases h
        simpa using ih hi

theorem findSub?_some_min {pat s : Str} {i : Nat}
    (h : findSub? pat s = some i) :
    ∀ j, j < i → hasPre pat (s.drop j) = false := by
  induction s generalizing i with
  | nil =>
    intro j hj
    simp only [findSub?] at h
    split at h
    · cases h; omega
    · exact absurd h (by simp)
  | cons c t ih =>
    intro j hj
    simp only [findSub?] at h
    split at h
    · cases h; omega
    · cases hi : findSub? pat t with
      | none => rw [hi] at h; simp at h
      | some k =>
        rw [hi] at h
        simp only [Option.map_some'] at h
        cases h
        cases j with
        | zero => simpa using Bool.of_not_eq_true ‹¬ hasPre pat (c :: t) = true›
        | succ j' => simpa using ih hi j' (by omega)

theorem findSub?_none {pat s : Str} (h : findSub? pat s = none) :
    ∀ j, hasPre pat (s.drop j) = false := by
  induction s with
  | nil =>
    intro j
    simp only [findSub?] at h
    split at h
    · exact absurd h (by simp)
    · simpa using Bool.of_not_eq_true ‹_›
  | cons c t ih =>
    intro j
    simp only [findSub?] at h
    split at h
    · exact absurd h (by simp)
    · cases hi : findSub? pat t with
      | some k => rw [hi] at h; simp at h
      | none =>
        cases j with
        | zero => simpa using Bool.of_not_eq_true ‹_›
        | succ j' => simpa using ih hi j'

theorem findSub?_isSome_of_hasPre {pat s : Str} {j : Nat}
    (h : hasPre pat (s.drop j) = true) : (findSub? pat s).isSome := by
  cases hf : findSub? pat s with
  | some i => simp
  | none => exact absurd h (by simp [findSub?_none hf j])

theorem findSub?_shift {pat s : Str} (k : Nat)
    (h : ∀ j, j < k → hasPre pat (s.drop j) = false) :
    findSub? pat s = (findSub? pat (s.drop k)).map (· + k) := by
  induction k generalizing s with
  | zero => simp
  | succ k ih =>
    cases s with
    | nil =>
      have h0 : hasPre pat [] = false := by simpa using h 0 (by omega)
      simp [findSub?, h0]
    | cons c t =>
      have h0 : hasPre pat (c :: t) = false := by simpa using h 0 (by omega)
      have ht : ∀ j, j < k → hasPre pat (t.drop j) = false := by
        intro j hj
        simpa using h (j + 1) (by omega)
      simp only [findSub?, h0, Bool.false_eq_true, if_false, ih ht,
        List.drop_succ_cons]
      cases findSub? pat (t.drop k) with
      | none => simp
      | some i => simp; omega

/-- Python `s.rfind(pat)` restricted to success: index of the last
occurrence of `pat` in `s`. -/
def rfindSub? (pat : Str) : Str → Option Nat
  | [] => if hasPre pat [] then some 0 else none
  | c :: t =>
    match rfindSub? pat t with
    | some i => some (i + 1)
    | none => if hasPre pat (c :: t) then some 0 else none

theorem rfindSub?_some_hasPre {pat s : Str} {i : Nat}
    (h : rfindSub? pat s = some i) : hasPre pat (s.drop i) = true := by
  induction s generalizing i with
  | nil =>
    by_cases hp : hasPre pat [] = true
    · simp [rfindSub?, hp] at h
      cases h
      simpa using hp
    · simp [rfindSub?, hp] at h
  | cons c t ih =>
    cases hi : rfindSub? pat t with
    | some j =>
      simp only [rfindSub?, hi] at h
      cases h
      simpa using ih hi
    | none =>
      by_cases hp : hasPre pat (c :: t) = true
      · simp only [rfindSub?, hi, hp, if_true] at h
        cases h
        simpa using hp
      · simp [rfindSub?, hi, hp] at h

theorem rfindSub?_none_aux {pat s : Str} (h : rfindSub? pat s = none) :
    ∀ j, hasPre pat (s.drop j) = false := by
  induction s with
  | nil =>
    intro j
    by_cases hp : hasPre pat [] = true
    · simp [rfindSub?, hp] at h
    · simpa using Bool.of_not_eq_true hp
  | cons c t ih =>
    intro j
    cases hi : rfindSub? pat t with
    | some k => simp [rfindSub?, hi] at h
    | none =>
      by_cases hp : hasPre pat (c :: t) = true
      · simp [rfindSub?, hi, hp] at h
      · cases j with
        | zero => simpa using Bool.of_not_eq_true hp
        | succ j' => simpa using ih (by simp [rfindSub?, hi, hp]) j'

theorem rfindSub?_some_max {pat s : Str} {i : Nat} (hpat : pat ≠ [])
    (h : rfindSub? pat s = some i) :
    ∀ j, i < j → hasPre pat (s.drop j) = false := by
  induction s generalizing i with
  | nil =>
    intro j hj
    have hp : hasPre pat [] = false := by
      cases pat with
      | nil => exact absurd rfl hpat
      | cons p ps => simp [hasPre]
    simp [rfindSub?, hp] at h
  | cons c t ih =>
    intro j hj
    cases hi : rfindSub? pat t with
    | some k =>
      simp only [rfindSub?, hi] at h
      cases h
      cases j with
      | zero => omega
      | succ j' => simpa using ih hi j' (by omega)
    | none =>
      by_cases hp : hasPre pat (c :: t) = true
      · simp only [rfindSub?, hi, hp, if_true] at h
        cases h
        cases j with
        | zero => omega
        | succ j' => simpa using rfindSub?_none_aux hi j'
      · simp [rfindSub?, hi, hp] at h


/-- Python `s.rfind(ch)` for a single character. -/
def lastIdxOf (ch : Char) : Str → Option Nat
  | [] => none
  | c :: t =>
    match lastIdxOf ch t with
    | some i => some (i + 1)
    | none => if c == ch then some 0 else none

theorem lastIdxOf_append (ch : Char) (x y : Str) :
    lastIdxOf ch (x ++ y) =
      match lastIdxOf ch y with
      | some q => some (x.length + q)
      | none => lastIdxOf ch x := by
  induction x with
  | nil => cases hy : lastIdxOf ch y <;> simp [hy, lastIdxOf]
  | cons c t ih =>
    cases hy : lastIdxOf ch y with
    | some q =>
      have hty : lastIdxOf ch (t ++ y) = some (t.length + q) := by rw [ih, hy]
      simp only [List.cons_append, lastIdxOf, List.append_eq, hty, hy,
        List.length_cons, Option.some.injEq]
      omega
    | none =>
      have hty : lastIdxOf ch (t ++ y) = lastIdxOf ch t := by rw [ih, hy]
      simp only [List.cons_append, lastIdxOf, List.append_eq, hty, hy]

theorem lastIdxOf_get {ch : Char} {s : Str} {i : Nat}
    (h : lastIdxOf ch s = some i) : s.get? i = some ch := by
  induction s generalizing i with
  | nil => simp [lastIdxOf] at h
  | cons c t ih =>
    cases ht : lastIdxOf ch t with
    | some j =>
      simp only [lastIdxOf, ht] at h
      cases h
      simpa using ih ht
    | none =>
      by_cases hc : (c == ch) = true
      · simp only [lastIdxOf, ht, hc, if_true] at h
        cases h
        simpa using (beq_iff_eq.mp hc)
      · simp [lastIdxOf, ht, hc] at h


/-! Streaming thought/message splitter (`BaseAgent.think`, base_agent.py
lines 97-201).  The machine below models the character bookkeeping of the
`while True` loop exactly: per chunk the buffer is extended and the loop
splits off thought spans at `</think>`, message spans at `<think>`,
withholds the last `len("</think>") - 1` characters of an unfinished
thought, and withholds a trailing prefix of `<think>` in message mode.
Event boundaries are irrelevant to the round-trip claim, so outputs are
the concatenations of all message and all thought event contents. -/

/-- The `<think>` opening tag of `BaseAgent.think`. -/
def openTag : Str := "<think>".data

/-- The `</think>` closing tag of `BaseAgent.think`. -/
def closeTag : Str := "</think>".data

/-- Worker for `specSplit`: `skip` characters still to consume silently
(the tail of a tag already recognised). -/
def specSplitGo : Bool → Nat → Str → Str × Str
  | _, _, [] => ([], [])
  | md, skip + 1, _ :: t => specSplitGo md skip t
  | false, 0, c :: t =>
    if hasPre openTag (c :: t) then specSplitGo true (openTag.length - 1) t
    else
      let p := specSplitGo false 0 t
      (c :: p.1, p.2)
  | true, 0, c :: t =>
    if hasPre closeTag (c :: t) then specSplitGo false (closeTag.length - 1) t
    else
      let p := specSplitGo true 0 t
      (p.1, c :: p.2)

/-- Reference partition of a complete string into (message text, thought
text): scanning left to right, `<think>` enters thought mode, `</think>`
leaves it, and everything after an unmatched opener remains thought text
(the claim's "trailing incomplete tag is flushed as literal content of the
currently active type"). -/
def specSplit (md : Bool) (s : Str) : Str × Str := specSplitGo md 0 s

/-- State and output of one run of the splitter loop over the current
buffer: total message text, total thought text and the `(in_thought,
buffer)` pair left when the loop breaks to await more input. -/
structure SplitOut where
  msg : Str
  tho : Str
  inThought : Bool
  buffer : Str
deriving DecidableEq

/-- One execution of the `while True` loop of `BaseAgent.think` over the
buffer `s` in mode `md`, faithful to base_agent.py lines 124-185: in
thought mode split at the first `</think>` or withhold the last
`len(end_tag) - 1` characters; in message mode split at the first
`<think>`, or withhold the trailing prefix of the opening tag found from
the last `<`. -/
def procBuf : Bool → Str → SplitOut
  | true, s =>
    match h : findSub? closeTag s with
    | some i =>
      let r := procBuf false (s.drop (i + closeTag.length))
      ⟨r.msg, s.take i ++ r.tho, r.inThought, r.buffer⟩
    | none =>
      let safeLen := s.length + 1 - closeTag.length
      if 0 < safeLen then ⟨[], s.take safeLen, true, s.drop safeLen⟩
      else ⟨[], [], true, s⟩
  | false, s =>
    match h : findSub? openTag s with
    | some i =>
      let r := procBuf true (s.drop (i + openTag.length))
      ⟨s.take i ++ r.msg, r.tho, r.inThought, r.buffer⟩
    | none =>
      match lastIdxOf '<' s with
      | some j =>
        if hasPre (s.drop j) openTag then ⟨s.take j, [], false, s.drop j⟩
        else ⟨s, [], false, []⟩
      | none => ⟨s, [], false, []⟩
termination_by md s => s.length
decreasing_by
· have h1 := findSub?_some_hasPre h
  have h2 := hasPre_length h1
  have h3 : closeTag.length = 8 := rfl
  simp only [List.length_drop] at h2 ⊢
  omega
· have h1 := findSub?_some_hasPre h
  have h2 := hasPre_length h1
  have h3 : openTag.length = 7 := rfl
  simp only [List.length_drop] at h2 ⊢
  omega

/-- End-of-stream flush (base_agent.py lines 188-193): the remaining buffer
is emitted as the currently active event type. -/
def flushOut (r : SplitOut) : Str × Str :=
  if r.inThought then (r.msg, r.tho ++ r.buffer) else (r.msg ++ r.buffer, r.tho)

/-- Feed a list of chunks to the splitter from a given state: per chunk the
buffer is extended and the loop body (`procBuf`) runs. -/
def feedChunks : Bool → Str → List Str → SplitOut
  | md, buf, [] => ⟨[], [], md, buf⟩
  | md, buf, ch :: rest =>
    let r1 := procBuf md (buf ++ ch)
    let r2 := feedChunks r1.inThought r1.buffer rest
    ⟨r1.msg ++ r2.msg, r1.tho ++ r2.tho, r2.inThought, r2.buffer⟩

/-- The streaming splitter run end to end: start outside a thought with an
empty buffer, feed every chunk, then flush the remainder. -/
def runSplitter (chunks : List Str) : Str × Str :=
  flushOut (feedChunks false [] chunks)

theorem getq_append_left {l₁ l₂ : Str} {n : Nat} (h : n < l₁.length) :
    (l₁ ++ l₂).get? n = l₁.get? n := by
  simp only [List.get?_eq_getElem?]
  exact List.getElem?_append_left h

theorem lt_of_getq_some {l : Str} {n : Nat} {c : Char} (h : l.get? n = some c) :
    n < l.length := by
  by_contra hn
  rw [List.get?_eq_none.mpr (by omega)] at h
  cases h

theorem take_append_of_le {l₁ l₂ : Str} {n : Nat} (h : n ≤ l₁.length) :
    (l₁ ++ l₂).take n = l₁.take n := by
  rw [List.take_append_eq_append_take]
  have h0 : n - l₁.length = 0 := by omega
  simp [h0]

theorem drop_append_of_le {l₁ l₂ : Str} {n : Nat} (h : n ≤ l₁.length) :
    (l₁ ++ l₂).drop n = l₁.drop n ++ l₂ := by
  rw [List.drop_append_eq_append_drop]
  have h0 : n - l₁.length = 0 := by omega
  simp [h0]

/-- Characterisation of `findSub?`: an occurrence before which there is
none is the first occurrence. -/
theorem findSub?_eq_some_of {pat s : Str} {i : Nat}
    (h1 : hasPre pat (s.drop i) = true)
    (h2 : ∀ j, j < i → hasPre pat (s.drop j) = false) :
    findSub? pat s = some i := by
  cases hf : findSub? pat s with
  | none => exact absurd h1 (by simp [findSub?_none hf i])
  | some k =>
    rcases Nat.lt_trichotomy k i with hlt | heq | hgt
    · exact absurd (findSub?_some_hasPre hf) (by simp [h2 k hlt])
    · rw [heq]
    · exact absurd h1 (by simp [findSub?_some_min hf i hgt])

theorem findSub?_le_length {pat s : Str} {i : Nat}
    (h : findSub? pat s = some i) : i ≤ s.length := by
  induction s generalizing i with
  | nil =>
    simp only [findSub?] at h
    split at h
    · cases h; simp
    · cases h
  | cons c t ih =>
    simp only [findSub?] at h
    split at h
    · cases h; simp
    · cases hi : findSub? pat t with
      | none => rw [hi] at h; cases h
      | some j =>
        rw [hi] at h
        simp only [Option.map_some'] at h
        cases h
        have := ih hi
        simp
        omega

theorem findSub?_some_bound {pat s : Str} {i : Nat}
    (h : findSub? pat s = some i) : i + pat.length ≤ s.length := by
  have h1 := hasPre_length (findSub?_some_hasPre h)
  have h2 := findSub?_le_length h
  simp only [List.length_drop] at h1
  omega

/-- The first occurrence in `s` stays the first occurrence after more text
is appended. -/
theorem findSub?_append_some {pat s : Str} (c : Str) {i : Nat}
    (h : findSub? pat s = some i) : findSub? pat (s ++ c) = some i := by
  have hb := findSub?_some_bound h
  apply findSub?_eq_some_of
  · rw [drop_append_of_le (by omega)]
    exact hasPre_append_right c (findSub?_some_hasPre h)
  · intro j hj
    rw [drop_append_of_le (by omega)]
    by_contra hx
    have hx' : hasPre pat (s.drop j ++ c) = true := by
      cases hv : hasPre pat (s.drop j ++ c)
      · exact absurd hv hx
      · rfl
    have : hasPre pat (s.drop j) = true := by
      apply hasPre_of_append_of_le hx'
      simp only [List.length_drop]
      omega
    simp [findSub?_some_min h j hj] at this

/-- If `pat` starts with `x`, then any prefix of `pat` no longer than `x`
agrees with `x` on that prefix. -/
theorem hasPre_of_hasPre_append {pat x c : Str}
    (h : hasPre pat (x ++ c) = true) (hle : x.length ≤ pat.length) :
    hasPre x pat = true := by
  rcases hasPre_iff_append.mp h with ⟨t, ht⟩
  refine hasPre_iff_append.mpr ⟨pat.drop x.length, ?_⟩
  have hx : x = (x ++ c).take x.length := by simp
  have : (x ++ c).take x.length = pat.take x.length := by
    rw [ht, take_append_of_le hle]
  conv_lhs => rw [← List.take_append_drop x.length pat]
  rw [← this, ← hx]

theorem specSplitGo_skip (md : Bool) (k : Nat) (t : Str) :
    specSplitGo md k t = specSplit md (t.drop k) := by
  induction k generalizing t md with
  | zero => simp [specSplit]
  | succ k ih =>
    cases t with
    | nil => cases md <;> simp [specSplitGo, specSplit]
    | cons c t2 => simp [specSplitGo, ih]

theorem specSplit_nil (md : Bool) : specSplit md [] = ([], []) := by
  cases md <;> rfl

theorem specSplit_open_found {s : Str} (h : hasPre openTag s = true) :
    specSplit false s = specSplit true (s.drop openTag.length) := by
  cases s with
  | nil => exact absurd rfl (hasPre_ne_nil h (by decide))
  | cons c t =>
    show specSplitGo false 0 (c :: t) = _
    simp only [specSplitGo, h, if_true, specSplitGo_skip]
    rfl

theorem specSplit_close_found {s : Str} (h : hasPre closeTag s = true) :
    specSplit true s = specSplit false (s.drop closeTag.length) := by
  cases s with
  | nil => exact absurd rfl (hasPre_ne_nil h (by decide))
  | cons c t =>
    show specSplitGo true 0 (c :: t) = _
    simp only [specSplitGo, h, if_true, specSplitGo_skip]
    rfl

theorem specSplit_open_cons {c : Char} {t : Str}
    (h : hasPre openTag (c :: t) = false) :
    specSplit false (c :: t) =
      (c :: (specSplit false t).1, (specSplit false t).2) := by
  show specSplitGo false 0 (c :: t) = _
  simp [specSplitGo, h, specSplit]

theorem specSplit_close_cons {c : Char} {t : Str}
    (h : hasPre closeTag (c :: t) = false) :
    specSplit true (c :: t) =
      ((specSplit true t).1, c :: (specSplit true t).2) := by
  show specSplitGo true 0 (c :: t) = _
  simp [specSplitGo, h, specSplit]

theorem spec_of_findOpen_some {s : Str} {i : Nat}
    (h : findSub? openTag s = some i) :
    specSplit false s =
      (s.take i ++ (specSplit true (s.drop (i + openTag.length))).1,
       (specSplit true (s.drop (i + openTag.length))).2) := by
  induction s generalizing i with
  | nil =>
    simp only [findSub?] at h
    split at h
    · cases h
      exact absurd ‹hasPre openTag [] = true› (by decide)
    · cases h
  | cons c t ih =>
    by_cases hp : hasPre openTag (c :: t) = true
    · have hi : i = 0 := by
        simp [findSub?, hp] at h
        omega
      subst hi
      simp only [List.take_zero, List.nil_append, List.drop_zero, Nat.zero_add]
      rw [specSplit_open_found hp]
    · have hp2 : hasPre openTag (c :: t) = false := by
        cases hv : hasPre openTag (c :: t)
        · rfl
        · exact absurd hv hp
      simp only [findSub?, hp2, Bool.false_eq_true, if_false] at h
      cases hft : findSub? openTag t with
      | none => rw [hft] at h; cases h
      | some j =>
        rw [hft] at h
        simp only [Option.map_some'] at h
        cases h
        rw [specSplit_open_cons hp2, ih hft]
        have e1 : (c :: t).take (j + 1) = c :: t.take j := rfl
        have e2 : (c :: t).drop (j + 1 + openTag.length) =
            t.drop (j + openTag.length) := by
          have ha : j + 1 + openTag.length = (j + openTag.length) + 1 := by omega
          rw [ha, List.drop_succ_cons]
        rw [e1, e2]
        rfl

theorem spec_of_findOpen_none {s : Str} (h : findSub? openTag s = none) :
    specSplit false s = (s, []) := by
  induction s with
  | nil => exact specSplit_nil false
  | cons c t ih =>
    have hp : hasPre openTag (c :: t) = false := by
      simpa using findSub?_none h 0
    simp only [findSub?, hp, Bool.false_eq_true, if_false] at h
    cases hft : findSub? openTag t with
    | some j => rw [hft] at h; cases h
    | none =>
      rw [specSplit_open_cons hp, ih hft]

theorem spec_of_findClose_some {s : Str} {i : Nat}
    (h : findSub? closeTag s = some i) :
    specSplit true s =
      ((specSplit false (s.drop (i + closeTag.length))).1,
       s.take i ++ (specSplit false (s.drop (i + closeTag.length))).2) := by
  induction s generalizing i with
  | nil =>
    simp only [findSub?] at h
    split at h
    · cases h
      exact absurd ‹hasPre closeTag [] = true› (by decide)
    · cases h
  | cons c t ih =>
    by_cases hp : hasPre closeTag (c :: t) = true
    · have hi : i = 0 := by
        simp [findSub?, hp] at h
        omega
      subst hi
      simp only [List.take_zero, List.nil_append, List.drop_zero, Nat.zero_add]
      rw [specSplit_close_found hp]
    · have hp2 : hasPre closeTag (c :: t) = false := by
        cases hv : hasPre closeTag (c :: t)
        · rfl
        · exact absurd hv hp
      simp only [findSub?, hp2, Bool.false_eq_true, if_false] at h
      cases hft : findSub? closeTag t with
      | none => rw [hft] at h; cases h
      | some j =>
        rw [hft] at h
        simp only [Option.map_some'] at h
        cases h
        rw [specSplit_close_cons hp2, ih hft]
        have e1 : (c :: t).take (j + 1) = c :: t.take j := rfl
        have e2 : (c :: t).drop (j + 1 + closeTag.length) =
            t.drop (j + closeTag.length) := by
          have ha : j + 1 + closeTag.length = (j + closeTag.length) + 1 := by omega
          rw [ha, List.drop_succ_cons]
        rw [e1, e2]
        rfl

theorem spec_of_findClose_none {s : Str} (h : findSub? closeTag s = none) :
    specSplit true s = ([], s) := by
  induction s with
  | nil => exact specSplit_nil true
  | cons c t ih =>
    have hp : hasPre closeTag (c :: t) = false := by
      simpa using findSub?_none h 0
    simp only [findSub?, hp, Bool.false_eq_true, if_false] at h
    cases hft : findSub? closeTag t with
    | some j => rw [hft] at h; cases h
    | none =>
      rw [specSplit_close_cons hp, ih hft]

theorem hasPre_refl (x : Str) : hasPre x x = true :=
  hasPre_iff_append.mpr ⟨[], by simp⟩

theorem findSub?_none_of_short {pat s : Str} (hp : pat ≠ [])
    (h : s.length < pat.length) : findSub? pat s = none := by
  cases hf : findSub? pat s with
  | none => rfl
  | some i =>
    have := findSub?_some_bound hf
    omega

theorem lastIdxOf_none_get {ch : Char} {s : Str}
    (h : lastIdxOf ch s = none) : ∀ x, s.get? x ≠ some ch := by
  induction s with
  | nil => intro x; simp
  | cons c t ih =>
    intro x
    cases ht : lastIdxOf ch t with
    | some i => simp [lastIdxOf, ht] at h
    | none =>
      by_cases hc : (c == ch) = true
      · simp [lastIdxOf, ht, hc] at h
      · cases x with
        | zero =>
          simp only [List.get?_cons_zero, ne_eq, Option.some.injEq]
          intro hx
          exact hc (by simp [hx])
        | succ x2 => simpa using ih ht x2

theorem lastIdxOf_max {ch : Char} {s : Str} {j : Nat}
    (h : lastIdxOf ch s = some j) : ∀ x, j < x → s.get? x ≠ some ch := by
  induction s generalizing j with
  | nil => intro x hx; simp
  | cons c t ih =>
    intro x hx
    cases ht : lastIdxOf ch t with
    | some i =>
      simp only [lastIdxOf, ht] at h
      cases h
      cases x with
      | zero => omega
      | succ x2 => simpa using ih ht x2 (by omega)
    | none =>
      by_cases hc : (c == ch) = true
      · simp only [lastIdxOf, ht, hc, if_true] at h
        cases h
        cases x with
        | zero => omega
        | succ x2 => simpa using lastIdxOf_none_get ht x2
      · simp [lastIdxOf, ht, hc] at h

theorem openTag_get_ne {d : Nat} (h1 : 1 ≤ d) (h6 : d ≤ 6) :
    openTag.get? d ≠ some '<' := by
  interval_cases d <;> decide

/-- Facts about a withheld partial opening tag: it is a non-empty strict
prefix of `<think>`, so it contains `<` only at position 0. -/
theorem openPre_facts {s : Str} {j : Nat}
    (hf : findSub? openTag s = none)
    (hj : lastIdxOf '<' s = some j)
    (hp : hasPre (s.drop j) openTag = true) :
    1 ≤ (s.drop j).length ∧ (s.drop j).length ≤ 6 ∧
      lastIdxOf '<' (s.drop j) = some 0 ∧
      s.drop j = openTag.take (s.drop j).length := by
  have hjlt : j < s.length := lt_of_getq_some (lastIdxOf_get hj)
  have hlen1 : 1 ≤ (s.drop j).length := by
    simp only [List.length_drop]
    omega
  have hle7 : (s.drop j).length ≤ openTag.length := hasPre_length hp
  have heq : openTag.take (s.drop j).length = s.drop j := hasPre_take hp
  have hlen6 : (s.drop j).length ≤ 6 := by
    by_contra hgt
    have h7 : (s.drop j).length = 7 := by
      have ho : openTag.length = 7 := rfl
      omega
    have hdj : s.drop j = openTag := by
      rw [← heq, h7]
      rfl
    have hbad := findSub?_none hf j
    rw [hdj, hasPre_refl] at hbad
    cases hbad
  refine ⟨hlen1, hlen6, ?_, heq.symm⟩
  rw [← heq]
  have hle7n : (s.drop j).length ≤ 6 := hlen6
  generalize hg : (s.drop j).length = n at hlen1 hle7n ⊢
  have hcase : n = 1 ∨ n = 2 ∨ n = 3 ∨ n = 4 ∨ n = 5 ∨ n = 6 := by omega
  rcases hcase with h | h | h | h | h | h <;> rw [h] <;> decide

theorem procBuf_true_some {s : Str} {i : Nat}
    (h : findSub? closeTag s = some i) :
    procBuf true s =
      ⟨(procBuf false (s.drop (i + closeTag.length))).msg,
       s.take i ++ (procBuf false (s.drop (i + closeTag.length))).tho,
       (procBuf false (s.drop (i + closeTag.length))).inThought,
       (procBuf false (s.drop (i + closeTag.length))).buffer⟩ := by
  conv_lhs => rw [procBuf]
  split
  · rename_i i2 heq
    rw [heq] at h
    cases h
    rfl
  · rename_i heq
    rw [heq] at h
    cases h

theorem procBuf_true_none_long {s : Str}
    (h : findSub? closeTag s = none) (hl : 8 ≤ s.length) :
    procBuf true s =
      ⟨[], s.take (s.length + 1 - closeTag.length), true,
       s.drop (s.length + 1 - closeTag.length)⟩ := by
  conv_lhs => rw [procBuf]
  split
  · rename_i i2 heq
    rw [heq] at h
    cases h
  · rename_i heq
    have hc : closeTag.length = 8 := rfl
    rw [if_pos (by omega)]

theorem procBuf_true_none_short {s : Str}
    (h : findSub? closeTag s = none) (hl : s.length ≤ 7) :
    procBuf true s = ⟨[], [], true, s⟩ := by
  conv_lhs => rw [procBuf]
  split
  · rename_i i2 heq
    rw [heq] at h
    cases h
  · rename_i heq
    have hc : closeTag.length = 8 := rfl
    rw [if_neg (by omega)]

theorem procBuf_false_some {s : Str} {i : Nat}
    (h : findSub? openTag s = some i) :
    procBuf false s =
      ⟨s.take i ++ (procBuf true (s.drop (i + openTag.length))).msg,
       (procBuf true (s.drop (i + openTag.length))).tho,
       (procBuf true (s.drop (i + openTag.length))).inThought,
       (procBuf true (s.drop (i + openTag.length))).buffer⟩ := by
  conv_lhs => rw [procBuf]
  split
  · rename_i i2 heq
    rw [heq] at h
    cases h
    rfl
  · rename_i heq
    rw [heq] at h
    cases h

theorem procBuf_false_none_nolt {s : Str}
    (h : findSub? openTag s = none) (hj : lastIdxOf '<' s = none) :
    procBuf false s = ⟨s, [], false, []⟩ := by
  conv_lhs => rw [procBuf]
  split
  · rename_i i2 heq
    rw [heq] at h
    cases h
  · split
    · rename_i j heq
      rw [heq] at hj
      cases hj
    · rfl

theorem procBuf_false_none_pre {s : Str} {j : Nat}
    (h : findSub? openTag s = none) (hj : lastIdxOf '<' s = some j)
    (hp : hasPre (s.drop j) openTag = true) :
    procBuf false s = ⟨s.take j, [], false, s.drop j⟩ := by
  conv_lhs => rw [procBuf]
  split
  · rename_i i2 heq
    rw [heq] at h
    cases h
  · split
    · rename_i j2 heq
      rw [heq] at hj
      cases hj
      rw [if_pos hp]
    · rename_i heq
      rw [heq] at hj
      cases hj

theorem procBuf_false_none_npre {s : Str} {j : Nat}
    (h : findSub? openTag s = none) (hj : lastIdxOf '<' s = some j)
    (hp : hasPre (s.drop j) openTag = false) :
    procBuf false s = ⟨s, [], false, []⟩ := by
  conv_lhs => rw [procBuf]
  split
  · rename_i i2 heq
    rw [heq] at h
    cases h
  · split
    · rename_i j2 heq
      rw [heq] at hj
      cases hj
      rw [if_neg (by simp [hp])]
    · rename_i heq
      rw [heq] at hj

theorem flushOut_prependMsg (a : Str) (r : SplitOut) :
    flushOut ⟨a ++ r.msg, r.tho, r.inThought, r.buffer⟩ =
      (a ++ (flushOut r).1, (flushOut r).2) := by
  cases hT : r.inThought <;> simp [flushOut, hT, List.append_assoc]

theorem flushOut_prependTho (a : Str) (r : SplitOut) :
    flushOut ⟨r.msg, a ++ r.tho, r.inThought, r.buffer⟩ =
      ((flushOut r).1, a ++ (flushOut r).2) := by
  cases hT : r.inThought <;> simp [flushOut, hT, List.append_assoc]

theorem flush_procBuf_le :
    ∀ (n : Nat) (md : Bool) (s : Str), s.length ≤ n →
      flushOut (procBuf md s) = specSplit md s := by
  intro n
  induction n with
  | zero =>
    intro md s hs
    have hnil : s = [] := List.length_eq_zero.mp (by omega)
    subst hnil
    cases md
    · have h1 : findSub? openTag ([] : Str) = none := by decide
      have h2 : lastIdxOf '<' ([] : Str) = none := by decide
      rw [procBuf_false_none_nolt h1 h2]
      simp [flushOut, specSplit_nil]
    · have h1 : findSub? closeTag ([] : Str) = none := by decide
      rw [procBuf_true_none_short h1 (by decide)]
      simp [flushOut, specSplit_nil]
  | succ n ih =>
    intro md s hs
    cases md
    case false =>
      cases hf : findSub? openTag s with
      | some i =>
        have hb := findSub?_some_bound hf
        have ho : openTag.length = 7 := rfl
        have hrec := ih true (s.drop (i + openTag.length))
          (by simp only [List.length_drop]; omega)
        rw [procBuf_false_some hf, flushOut_prependMsg, hrec,
          spec_of_findOpen_some hf]
      | none =>
        cases hj : lastIdxOf '<' s with
        | none =>
          rw [procBuf_false_none_nolt hf hj, spec_of_findOpen_none hf]
          simp [flushOut]
        | some j =>
          cases hp : hasPre (s.drop j) openTag with
          | true =>
            rw [procBuf_false_none_pre hf hj hp, spec_of_findOpen_none hf]
            simp [flushOut]
          | false =>
            rw [procBuf_false_none_npre hf hj hp, spec_of_findOpen_none hf]
            simp [flushOut]
    case true =>
      cases hf : findSub? closeTag s with
      | some i =>
        have hb := findSub?_some_bound hf
        have hc : closeTag.length = 8 := rfl
        have hrec := ih false (s.drop (i + closeTag.length))
          (by simp only [List.length_drop]; omega)
        rw [procBuf_true_some hf, flushOut_prependTho, hrec,
          spec_of_findClose_some hf]
      | none =>
        by_cases hl : 8 ≤ s.length
        · rw [procBuf_true_none_long hf hl, spec_of_findClose_none hf]
          simp [flushOut]
        · rw [procBuf_true_none_short hf (by omega), spec_of_findClose_none hf]
          simp [flushOut]

/-- Flushing the state left by one run of the loop reproduces the reference
partition of the whole buffer. -/
theorem flush_procBuf (md : Bool) (s : Str) :
    flushOut (procBuf md s) = specSplit md s :=
  flush_procBuf_le s.length md s (Nat.le_refl _)

theorem hasPre_append_elim {x y s : Str}
    (h : hasPre (x ++ y) s = true) : hasPre x s = true := by
  rcases hasPre_iff_append.mp h with ⟨t, rfl⟩
  exact hasPre_iff_append.mpr ⟨y ++ t, by simp⟩

/-- A buffer left behind by the loop emits nothing when reprocessed alone. -/
theorem procBuf_stable_le :
    ∀ (n : Nat) (md : Bool) (s : Str), s.length ≤ n →
      procBuf (procBuf md s).inThought (procBuf md s).buffer =
        ⟨[], [], (procBuf md s).inThought, (procBuf md s).buffer⟩ := by
  intro n
  induction n with
  | zero =>
    intro md s hs
    have hnil : s = [] := List.length_eq_zero.mp (by omega)
    subst hnil
    cases md
    · have h1 : findSub? openTag ([] : Str) = none := by decide
      have h2 : lastIdxOf '<' ([] : Str) = none := by decide
      rw [procBuf_false_none_nolt h1 h2]
      exact procBuf_false_none_nolt h1 h2
    · have h1 : findSub? closeTag ([] : Str) = none := by decide
      rw [procBuf_true_none_short h1 (by decide)]
      exact procBuf_true_none_short h1 (by decide)
  | succ n ih =>
    intro md s hs
    cases md
    case false =>
      cases hf : findSub? openTag s with
      | some i =>
        have hb := findSub?_some_bound hf
        have ho : openTag.length = 7 := rfl
        rw [procBuf_false_some hf]
        exact ih true (s.drop (i + openTag.length))
          (by simp only [List.length_drop]; omega)
      | none =>
        cases hj : lastIdxOf '<' s with
        | none =>
          rw [procBuf_false_none_nolt hf hj]
          have h1 : findSub? openTag ([] : Str) = none := by decide
          have h2 : lastIdxOf '<' ([] : Str) = none := by decide
          exact procBuf_false_none_nolt h1 h2
        | some j =>
          cases hp : hasPre (s.drop j) openTag with
          | true =>
            rw [procBuf_false_none_pre hf hj hp]
            obtain ⟨hl1, hl6, hlast, heq⟩ := openPre_facts hf hj hp
            have hfp : findSub? openTag (s.drop j) = none := by
              apply findSub?_none_of_short (by decide)
              have : openTag.length = 7 := rfl
              omega
            have := procBuf_false_none_pre hfp hlast
              (by simpa using hp)
            simpa using this
          | false =>
            rw [procBuf_false_none_npre hf hj hp]
            have h1 : findSub? openTag ([] : Str) = none := by decide
            have h2 : lastIdxOf '<' ([] : Str) = none := by decide
            exact procBuf_false_none_nolt h1 h2
    case true =>
      cases hf : findSub? closeTag s with
      | some i =>
        have hb := findSub?_some_bound hf
        have hc : closeTag.length = 8 := rfl
        rw [procBuf_true_some hf]
        exact ih false (s.drop (i + closeTag.length))
          (by simp only [List.length_drop]; omega)
      | none =>
        by_cases hl : 8 ≤ s.length
        · rw [procBuf_true_none_long hf hl]
          have hc : closeTag.length = 8 := rfl
          have hblen : (s.drop (s.length + 1 - closeTag.length)).length = 7 := by
            simp only [List.length_drop]
            omega
          have hfb : findSub? closeTag (s.drop (s.length + 1 - closeTag.length)) = none := by
            apply findSub?_none_of_short (by decide)
            have hc2 : closeTag.length = 8 := rfl
            omega
          have h7 : (s.drop (s.length + 1 - closeTag.length)).length ≤ 7 := by
            omega
          exact procBuf_true_none_short hfb h7
        · have h7 : s.length ≤ 7 := by omega
          rw [procBuf_true_none_short hf h7]
          exact procBuf_true_none_short hf h7

theorem procBuf_stable (md : Bool) (s : Str) :
    procBuf (procBuf md s).inThought (procBuf md s).buffer =
      ⟨[], [], (procBuf md s).inThought, (procBuf md s).buffer⟩ :=
  procBuf_stable_le s.length md s (Nat.le_refl _)

/-- Sequential composition of the loop: outputs of processing `s`, then of
processing the leftover buffer extended by `c`. -/
def seqOut (r : SplitOut) (c : Str) : SplitOut :=
  let r2 := procBuf r.inThought (r.buffer ++ c)
  ⟨r.msg ++ r2.msg, r.tho ++ r2.tho, r2.inThought, r2.buffer⟩

theorem no_open_in_prefix_nolt {s : Str} (c : Str)
    (hj : lastIdxOf '<' s = none) :
    ∀ x, x < s.length → hasPre openTag ((s ++ c).drop x) = false := by
  intro x hx
  cases hv : hasPre openTag ((s ++ c).drop x) with
  | false => rfl
  | true =>
    exfalso
    have h0 : ((s ++ c).drop x).get? 0 = openTag.get? 0 :=
      hasPre_get? hv (by decide)
    rw [List.get?_drop] at h0
    have hsx : s.get? x = some '<' := by
      rw [← getq_append_left hx]
      simpa using h0
    exact lastIdxOf_none_get hj x hsx

/-- An occurrence of the opening tag inside `s ++ c` that starts inside `s`
can only start at the last `<` of `s`, where `s`'s tail is a prefix of the
tag. -/
theorem open_occ_at_last {s c : Str} {j : Nat}
    (hf : findSub? openTag s = none)
    (hj : lastIdxOf '<' s = some j) :
    ∀ x, x < s.length → hasPre openTag ((s ++ c).drop x) = true →
      x = j ∧ hasPre (s.drop x) openTag = true := by
  intro x hx hocc
  have h0 : ((s ++ c).drop x).get? 0 = openTag.get? 0 :=
    hasPre_get? hocc (by decide)
  rw [List.get?_drop] at h0
  have hsx : s.get? x = some '<' := by
    rw [← getq_append_left hx]
    simpa using h0
  have hxj : x ≤ j := by
    by_contra hgt
    exact lastIdxOf_max hj x (by omega) hsx
  have hjlt : j < s.length := lt_of_getq_some (lastIdxOf_get hj)
  have ho7 : openTag.length = 7 := rfl
  have hspan : s.length < x + openTag.length := by
    by_contra hle
    have hdx : (s ++ c).drop x = s.drop x ++ c :=
      drop_append_of_le (by omega)
    rw [hdx] at hocc
    have : hasPre openTag (s.drop x) = true := by
      apply hasPre_of_append_of_le hocc
      simp only [List.length_drop]
      omega
    simp [findSub?_none hf x] at this
  rcases Nat.eq_or_lt_of_le hxj with heq | hlt
  · subst heq
    refine ⟨rfl, ?_⟩
    have hdx : (s ++ c).drop x = s.drop x ++ c :=
      drop_append_of_le (by omega)
    rw [hdx] at hocc
    apply hasPre_of_hasPre_append hocc
    simp only [List.length_drop]
    omega
  · exfalso
    have hd7 : j - x < 7 := by omega
    have hgd : ((s ++ c).drop x).get? (j - x) = openTag.get? (j - x) := by
      apply hasPre_get? hocc
      omega
    rw [List.get?_drop] at hgd
    have hxd : x + (j - x) = j := by omega
    rw [hxd, getq_append_left (by omega), lastIdxOf_get hj] at hgd
    exact openTag_get_ne (by omega) (by omega) hgd.symm

theorem procBuf_append_false_nolt {s : Str} (c : Str)
    (hj : lastIdxOf '<' s = none) :
    procBuf false (s ++ c) =
      ⟨s ++ (procBuf false c).msg, (procBuf false c).tho,
       (procBuf false c).inThought, (procBuf false c).buffer⟩ := by
  have hshift := @findSub?_shift openTag (s ++ c) s.length
    (no_open_in_prefix_nolt c hj)
  rw [List.drop_left] at hshift
  have hla := lastIdxOf_append '<' s c
  cases hfc : findSub? openTag c with
  | some i2 =>
    have hsc : findSub? openTag (s ++ c) = some (i2 + s.length) := by
      rw [hshift, hfc]
      rfl
    have harg : (s ++ c).drop (i2 + s.length + openTag.length) =
        c.drop (i2 + openTag.length) := by
      have h1 : i2 + s.length + openTag.length =
          s.length + (i2 + openTag.length) := by omega
      rw [h1, ← List.drop_drop, List.drop_left]
    have htake : (s ++ c).take (i2 + s.length) = s ++ c.take i2 := by
      have h1 : i2 + s.length = s.length + i2 := by omega
      rw [h1, List.take_add, List.take_left, List.drop_left]
    rw [procBuf_false_some hsc, procBuf_false_some hfc, harg, htake]
    simp [List.append_assoc]
  | none =>
    have hsn : findSub? openTag (s ++ c) = none := by
      rw [hshift, hfc]
      rfl
    cases hlc : lastIdxOf '<' c with
    | none =>
      have hlsc : lastIdxOf '<' (s ++ c) = none := by
        rw [hla, hlc, hj]
      rw [procBuf_false_none_nolt hsn hlsc, procBuf_false_none_nolt hfc hlc]
    | some q =>
      have hlsc : lastIdxOf '<' (s ++ c) = some (s.length + q) := by
        rw [hla, hlc]
      have hposs : (s ++ c).drop (s.length + q) = c.drop q := by
        rw [← List.drop_drop, List.drop_left]
      cases hpq : hasPre (c.drop q) openTag with
      | true =>
        have hpq2 : hasPre ((s ++ c).drop (s.length + q)) openTag = true := by
          rw [hposs]
          exact hpq
        have htake : (s ++ c).take (s.length + q) = s ++ c.take q := by
          rw [List.take_add, List.take_left, List.drop_left]
        rw [procBuf_false_none_pre hsn hlsc hpq2,
          procBuf_false_none_pre hfc hlc hpq, htake, hposs]
      | false =>
        have hpq2 : hasPre ((s ++ c).drop (s.length + q)) openTag = false := by
          rw [hposs]
          exact hpq
        rw [procBuf_false_none_npre hsn hlsc hpq2,
          procBuf_false_none_npre hfc hlc hpq]

theorem procBuf_append_false_npre {s : Str} (c : Str) {j : Nat}
    (hf : findSub? openTag s = none) (hj : lastIdxOf '<' s = some j)
    (hp : hasPre (s.drop j) openTag = false) :
    procBuf false (s ++ c) =
      ⟨s ++ (procBuf false c).msg, (procBuf false c).tho,
       (procBuf false c).inThought, (procBuf false c).buffer⟩ := by
  have hsh : ∀ x, x < s.length → hasPre openTag ((s ++ c).drop x) = false := by
    intro x hx
    cases hv : hasPre openTag ((s ++ c).drop x) with
    | false => rfl
    | true =>
      obtain ⟨hxe, hpre⟩ := open_occ_at_last hf hj x hx hv
      subst hxe
      rw [hp] at hpre
      cases hpre
  have hshift := @findSub?_shift openTag (s ++ c) s.length hsh
  rw [List.drop_left] at hshift
  have hla := lastIdxOf_append '<' s c
  cases hfc : findSub? openTag c with
  | some i2 =>
    have hsc : findSub? openTag (s ++ c) = some (i2 + s.length) := by
      rw [hshift, hfc]
      rfl
    have harg : (s ++ c).drop (i2 + s.length + openTag.length) =
        c.drop (i2 + openTag.length) := by
      have h1 : i2 + s.length + openTag.length =
          s.length + (i2 + openTag.length) := by omega
      rw [h1, ← List.drop_drop, List.drop_left]
    have htake : (s ++ c).take (i2 + s.length) = s ++ c.take i2 := by
      have h1 : i2 + s.length = s.length + i2 := by omega
      rw [h1, List.take_add, List.take_left, List.drop_left]
    rw [procBuf_false_some hsc, procBuf_false_some hfc, harg, htake]
    simp [List.append_assoc]
  | none =>
    have hsn : findSub? openTag (s ++ c) = none := by
      rw [hshift, hfc]
      rfl
    cases hlc : lastIdxOf '<' c with
    | none =>
      have hlsc : lastIdxOf '<' (s ++ c) = some j := by
        rw [hla, hlc, hj]
      have hposs : (s ++ c).drop j = s.drop j ++ c := by
        have hjlt : j < s.length := lt_of_getq_some (lastIdxOf_get hj)
        exact drop_append_of_le (by omega)
      have hpf : hasPre ((s ++ c).drop j) openTag = false := by
        rw [hposs]
        cases hv : hasPre (s.drop j ++ c) openTag with
        | false => rfl
        | true =>
          rw [hasPre_append_elim hv] at hp
          cases hp
      have hlcn : lastIdxOf '<' c = none := hlc
      rw [procBuf_false_none_npre hsn hlsc hpf,
        procBuf_false_none_nolt hfc hlcn]
    | some q =>
      have hlsc : lastIdxOf '<' (s ++ c) = some (s.length + q) := by
        rw [hla, hlc]
      have hposs : (s ++ c).drop (s.length + q) = c.drop q := by
        rw [← List.drop_drop, List.drop_left]
      cases hpq : hasPre (c.drop q) openTag with
      | true =>
        have hpq2 : hasPre ((s ++ c).drop (s.length + q)) openTag = true := by
          rw [hposs]
          exact hpq
        have htake : (s ++ c).take (s.length + q) = s ++ c.take q := by
          rw [List.take_add, List.take_left, List.drop_left]
        rw [procBuf_false_none_pre hsn hlsc hpq2,
          procBuf_false_none_pre hfc hlc hpq, htake, hposs]
      | false =>
        have hpq2 : hasPre ((s ++ c).drop (s.length + q)) openTag = false := by
          rw [hposs]
          exact hpq
        rw [procBuf_false_none_npre hsn hlsc hpq2,
          procBuf_false_none_npre hfc hlc hpq]

theorem procBuf_append_false_pre {s : Str} (c : Str) {j : Nat}
    (hf : findSub? openTag s = none) (hj : lastIdxOf '<' s = some j)
    (hp : hasPre (s.drop j) openTag = true) :
    procBuf false (s ++ c) =
      ⟨s.take j ++ (procBuf false (s.drop j ++ c)).msg,
       (procBuf false (s.drop j ++ c)).tho,
       (procBuf false (s.drop j ++ c)).inThought,
       (procBuf false (s.drop j ++ c)).buffer⟩ := by
  have hjlt : j < s.length := lt_of_getq_some (lastIdxOf_get hj)
  obtain ⟨hl1, hl6, hlast, hpeq⟩ := openPre_facts hf hj hp
  have hsh : ∀ x, x < j → hasPre openTag ((s ++ c).drop x) = false := by
    intro x hx
    cases hv : hasPre openTag ((s ++ c).drop x) with
    | false => rfl
    | true =>
      obtain ⟨hxe, _⟩ := open_occ_at_last hf hj x (by omega) hv
      omega
  have hshift := @findSub?_shift openTag (s ++ c) j hsh
  have hdj : (s ++ c).drop j = s.drop j ++ c := drop_append_of_le (by omega)
  rw [hdj] at hshift
  have hla := lastIdxOf_append '<' s c
  have hlb := lastIdxOf_append '<' (s.drop j) c
  cases hfc : findSub? openTag (s.drop j ++ c) with
  | some i2 =>
    have hsc : findSub? openTag (s ++ c) = some (i2 + j) := by
      rw [hshift, hfc]
      rfl
    have harg : (s ++ c).drop (i2 + j + openTag.length) =
        (s.drop j ++ c).drop (i2 + openTag.length) := by
      have h1 : i2 + j + openTag.length = j + (i2 + openTag.length) := by
        omega
      rw [h1, ← List.drop_drop, hdj]
    have htake : (s ++ c).take (i2 + j) = s.take j ++ (s.drop j ++ c).take i2 := by
      have h1 : i2 + j = j + i2 := by omega
      rw [h1, List.take_add, hdj, take_append_of_le (by omega)]
    rw [procBuf_false_some hsc, procBuf_false_some hfc, harg, htake]
    simp [List.append_assoc]
  | none =>
    have hsn : findSub? openTag (s ++ c) = none := by
      rw [hshift, hfc]
      rfl
    cases hlc : lastIdxOf '<' c with
    | none =>
      have hlsc : lastIdxOf '<' (s ++ c) = some j := by
        rw [hla, hlc, hj]
      have hlsb : lastIdxOf '<' (s.drop j ++ c) = some 0 := by
        rw [hlb, hlc, hlast]
      have hposs0 : (s.drop j ++ c).drop 0 = s.drop j ++ c := by
        rw [List.drop_zero]
      cases hz : hasPre (s.drop j ++ c) openTag with
      | true =>
        have hz1 : hasPre ((s ++ c).drop j) openTag = true := by
          rw [hdj]
          exact hz
        have hz2 : hasPre ((s.drop j ++ c).drop 0) openTag = true := by
          rw [hposs0]
          exact hz
        rw [procBuf_false_none_pre hsn hlsc hz1,
          procBuf_false_none_pre hfc hlsb hz2, hdj]
        simp [take_append_of_le (le_of_lt hjlt)]
      | false =>
        have hz1 : hasPre ((s ++ c).drop j) openTag = false := by
          rw [hdj]
          exact hz
        have hz2 : hasPre ((s.drop j ++ c).drop 0) openTag = false := by
          rw [hposs0]
          exact hz
        rw [procBuf_false_none_npre hsn hlsc hz1,
          procBuf_false_none_npre hfc hlsb hz2]
        have hacc : List.take j s ++ (List.drop j s ++ c) = s ++ c := by
          rw [← List.append_assoc, List.take_append_drop]
        simp [hacc]
    | some q =>
      have hlsc : lastIdxOf '<' (s ++ c) = some (s.length + q) := by
        rw [hla, hlc]
      have hlsb : lastIdxOf '<' (s.drop j ++ c) =
          some ((s.drop j).length + q) := by
        rw [hlb, hlc]
      have hposs : (s ++ c).drop (s.length + q) = c.drop q := by
        rw [← List.drop_drop, List.drop_left]
      have hpossb : (s.drop j ++ c).drop ((s.drop j).length + q) =
          c.drop q := by
        rw [← List.drop_drop, List.drop_left]
      cases hpq : hasPre (c.drop q) openTag with
      | true =>
        have hpq1 : hasPre ((s ++ c).drop (s.length + q)) openTag = true := by
          rw [hposs]
          exact hpq
        have hpq2 : hasPre ((s.drop j ++ c).drop ((s.drop j).length + q))
            openTag = true := by
          rw [hpossb]
          exact hpq
        have htake1 : (s ++ c).take (s.length + q) = s ++ c.take q := by
          rw [List.take_add, List.take_left, List.drop_left]
        have htake2 : (s.drop j ++ c).take ((s.drop j).length + q) =
            s.drop j ++ c.take q := by
          rw [List.take_add, List.take_left, List.drop_left]
        rw [procBuf_false_none_pre hsn hlsc hpq1,
          procBuf_false_none_pre hfc hlsb hpq2, htake1, htake2,
          hposs, hpossb]
        have : s.take j ++ (s.drop j ++ c.take q) = s ++ c.take q := by
          rw [← List.append_assoc, List.take_append_drop]
        simp [this]
      | false =>
        have hpq1 : hasPre ((s ++ c).drop (s.length + q)) openTag = false := by
          rw [hposs]
          exact hpq
        have hpq2 : hasPre ((s.drop j ++ c).drop ((s.drop j).length + q))
            openTag = false := by
          rw [hpossb]
          exact hpq
        rw [procBuf_false_none_npre hsn hlsc hpq1,
          procBuf_false_none_npre hfc hlsb hpq2]
        have : s.take j ++ (s.drop j ++ c) = s ++ c := by
          rw [← List.append_assoc, List.take_append_drop]
        simp [this]

theorem procBuf_append_true_long {s : Str} (c : Str)
    (hf : findSub? closeTag s = none) (hl : 8 ≤ s.length) :
    procBuf true (s ++ c) =
      ⟨(procBuf true (s.drop (s.length + 1 - closeTag.length) ++ c)).msg,
       s.take (s.length + 1 - closeTag.length) ++
         (procBuf true (s.drop (s.length + 1 - closeTag.length) ++ c)).tho,
       (procBuf true (s.drop (s.length + 1 - closeTag.length) ++ c)).inThought,
       (procBuf true (s.drop (s.length + 1 - closeTag.length) ++ c)).buffer⟩ := by
  have hc8 : closeTag.length = 8 := rfl
  set k := s.length + 1 - closeTag.length with hk
  have hkle : k ≤ s.length := by omega
  have hsh : ∀ x, x < k → hasPre closeTag ((s ++ c).drop x) = false := by
    intro x hx
    cases hv : hasPre closeTag ((s ++ c).drop x) with
    | false => rfl
    | true =>
      exfalso
      have hdx : (s ++ c).drop x = s.drop x ++ c := drop_append_of_le (by omega)
      rw [hdx] at hv
      have hin : hasPre closeTag (s.drop x) = true := by
        apply hasPre_of_append_of_le hv
        simp only [List.length_drop]
        omega
      simp [findSub?_none hf x] at hin
  have hshift := @findSub?_shift closeTag (s ++ c) k hsh
  have hdk : (s ++ c).drop k = s.drop k ++ c := drop_append_of_le hkle
  rw [hdk] at hshift
  have hblen : (s.drop k).length = 7 := by
    simp only [List.length_drop]
    omega
  cases hfc : findSub? closeTag (s.drop k ++ c) with
  | some i2 =>
    have hsc : findSub? closeTag (s ++ c) = some (i2 + k) := by
      rw [hshift, hfc]
      rfl
    have harg : (s ++ c).drop (i2 + k + closeTag.length) =
        (s.drop k ++ c).drop (i2 + closeTag.length) := by
      have h1 : i2 + k + closeTag.length = k + (i2 + closeTag.length) := by
        omega
      rw [h1, ← List.drop_drop, hdk]
    have htake : (s ++ c).take (i2 + k) =
        s.take k ++ (s.drop k ++ c).take i2 := by
      have h1 : i2 + k = k + i2 := by omega
      rw [h1, List.take_add, hdk, take_append_of_le hkle]
    rw [procBuf_true_some hsc, procBuf_true_some hfc, harg, htake]
    simp [List.append_assoc]
  | none =>
    have hsn : findSub? closeTag (s ++ c) = none := by
      rw [hshift, hfc]
      rfl
    by_cases hcn : c = []
    · subst hcn
      simp only [List.append_nil] at hfc ⊢
      have h7 : (s.drop k).length ≤ 7 := by omega
      rw [procBuf_true_none_long hf hl, procBuf_true_none_short hfc h7]
      simp
    · have hc0 : 0 < c.length := by
        cases c with
        | nil => exact absurd rfl hcn
        | cons a b => simp
      have hlL : 8 ≤ (s ++ c).length := by
        simp only [List.length_append]
        omega
      have hl2 : 8 ≤ (s.drop k ++ c).length := by
        simp only [List.length_append, hblen]
        omega
      rw [procBuf_true_none_long hsn hlL, procBuf_true_none_long hfc hl2]
      have e1 : (s ++ c).length + 1 - closeTag.length = k + c.length := by
        simp only [List.length_append]
        omega
      have e2 : (s.drop k ++ c).length + 1 - closeTag.length = c.length := by
        simp only [List.length_append, hblen]
        omega
      have htake : (s ++ c).take (k + c.length) =
          s.take k ++ (s.drop k ++ c).take c.length := by
        rw [List.take_add, hdk, take_append_of_le hkle]
      have hdrop : (s ++ c).drop (k + c.length) =
          (s.drop k ++ c).drop c.length := by
        rw [← List.drop_drop, hdk]
      rw [e1, e2, htake, hdrop]

/-- Composition: running the loop over `s ++ c` emits exactly what running
it over `s` and then over the leftover buffer extended by `c` emits. -/
theorem procBuf_append_le :
    ∀ (n : Nat) (md : Bool) (s c : Str), s.length ≤ n →
      procBuf md (s ++ c) = seqOut (procBuf md s) c := by
  intro n
  induction n with
  | zero =>
    intro md s c hs
    have hnil : s = [] := List.length_eq_zero.mp (by omega)
    subst hnil
    cases md
    · have h1 : findSub? openTag ([] : Str) = none := by decide
      have h2 : lastIdxOf '<' ([] : Str) = none := by decide
      rw [procBuf_false_none_nolt h1 h2]
      simp [seqOut]
    · have h1 : findSub? closeTag ([] : Str) = none := by decide
      rw [procBuf_true_none_short h1 (by decide)]
      simp [seqOut]
  | succ n ih =>
    intro md s c hs
    cases md
    case false =>
      cases hf : findSub? openTag s with
      | some i =>
        have hb := findSub?_some_bound hf
        have ho : openTag.length = 7 := rfl
        have hsc := findSub?_append_some c hf
        have htake : (s ++ c).take i = s.take i :=
          take_append_of_le (by omega)
        have hdrop : (s ++ c).drop (i + openTag.length) =
            s.drop (i + openTag.length) ++ c :=
          drop_append_of_le (by omega)
        rw [procBuf_false_some hsc, procBuf_false_some hf, htake, hdrop,
          ih true (s.drop (i + openTag.length)) c
            (by simp only [List.length_drop]; omega)]
        simp [seqOut, List.append_assoc]
      | none =>
        cases hj : lastIdxOf '<' s with
        | none =>
          rw [procBuf_append_false_nolt c hj, procBuf_false_none_nolt hf hj]
          simp [seqOut]
        | some j =>
          cases hp : hasPre (s.drop j) openTag with
          | true =>
            rw [procBuf_append_false_pre c hf hj hp,
              procBuf_false_none_pre hf hj hp]
            simp [seqOut]
          | false =>
            rw [procBuf_append_false_npre c hf hj hp,
              procBuf_false_none_npre hf hj hp]
            simp [seqOut]
    case true =>
      cases hf : findSub? closeTag s with
      | some i =>
        have hb := findSub?_some_bound hf
        have hc8 : closeTag.length = 8 := rfl
        have hsc := findSub?_append_some c hf
        have htake : (s ++ c).take i = s.take i :=
          take_append_of_le (by omega)
        have hdrop : (s ++ c).drop (i + closeTag.length) =
            s.drop (i + closeTag.length) ++ c :=
          drop_append_of_le (by omega)
        rw [procBuf_true_some hsc, procBuf_true_some hf, htake, hdrop,
          ih false (s.drop (i + closeTag.length)) c
            (by simp only [List.length_drop]; omega)]
        simp [seqOut, List.append_assoc]
      | none =>
        by_cases hl : 8 ≤ s.length
        · rw [procBuf_append_true_long c hf hl, procBuf_true_none_long hf hl]
          simp [seqOut]
        · have h7 : s.length ≤ 7 := by omega
          rw [procBuf_true_none_short hf h7]
          simp [seqOut]

theorem procBuf_append (md : Bool) (s c : Str) :
    procBuf md (s ++ c) = seqOut (procBuf md s) c :=
  procBuf_append_le s.length md s c (Nat.le_refl _)

theorem flushOut_prependBoth (a b : Str) (r : SplitOut) :
    flushOut ⟨a ++ r.msg, b ++ r.tho, r.inThought, r.buffer⟩ =
      (a ++ (flushOut r).1, b ++ (flushOut r).2) := by
  cases hT : r.inThought <;> simp [flushOut, hT, List.append_assoc]

theorem feedChunks_correct :
    ∀ (chunks : List Str) (md : Bool) (buf : Str),
      procBuf md buf = ⟨[], [], md, buf⟩ →
      flushOut (feedChunks md buf chunks) =
        specSplit md (buf ++ chunks.join) := by
  intro chunks
  induction chunks with
  | nil =>
    intro md buf hstable
    have h1 := flush_procBuf md buf
    rw [hstable] at h1
    simpa [feedChunks] using h1
  | cons ch rest ih =>
    intro md buf hstable
    have hassoc : buf ++ (ch :: rest).join = (buf ++ ch) ++ rest.join := by
      simp [List.join]
    rw [hassoc, ← flush_procBuf md ((buf ++ ch) ++ rest.join),
      procBuf_append md (buf ++ ch) rest.join]
    have hstab2 := procBuf_stable md (buf ++ ch)
    have hih := ih (procBuf md (buf ++ ch)).inThought
      (procBuf md (buf ++ ch)).buffer hstab2
    show flushOut (feedChunks md buf (ch :: rest)) = _
    simp only [feedChunks]
    rw [flushOut_prependBoth, hih]
    simp only [seqOut]
    rw [flushOut_prependBoth, flush_procBuf]

/-- C2: for every input string and every way of splitting it into chunks
fed incrementally to `BaseAgent.think`'s streaming splitter, the
concatenation of all emitted message-event contents and the concatenation
of all emitted thought-event contents are exactly the tag-stripped /
tag-extracted partition `specSplit false` of the whole input: message text
with every `<think>...</think>` span removed, thought bodies in order, no
character duplicated or dropped, a trailing incomplete tag flushed as
literal content of the active type, and the outcome independent of where
the chunk boundaries fall (the second conjunct). -/
theorem c2_splitter_roundtrip :
    (∀ chunks : List Str, runSplitter chunks = specSplit false chunks.join) ∧
      (∀ c1 c2 : List Str, c1.join = c2.join →
        runSplitter c1 = runSplitter c2) := by
  have hmain : ∀ chunks : List Str,
      runSplitter chunks = specSplit false chunks.join := by
    intro chunks
    have h1 : findSub? openTag ([] : Str) = none := by decide
    have h2 : lastIdxOf '<' ([] : Str) = none := by decide
    have hstable : procBuf false ([] : Str) = ⟨[], [], false, []⟩ :=
      procBuf_false_none_nolt h1 h2
    have := feedChunks_correct chunks false [] hstable
    simpa [runSplitter] using this
  refine ⟨hmain, ?_⟩
  intro c1 c2 hj
  rw [hmain c1, hmain c2, hj]

/-- C2 witness: the boundary-independence conjunct applied to a concrete
split of `ab<think>x</think>c` that tears both tags mid-token. -/
theorem c2_splitter_roundtrip_witness :
    runSplitter ["ab<th".data, "ink>x</th".data, "ink>c".data] =
      runSplitter ["ab<think>x</think>c".data] :=
  c2_splitter_roundtrip.2 _ _ (by decide)

/-! Cue grammar and extractor (`AgentOrchestrator._extract_cues`,
orchestrator.py lines 236-339).  Cues are the tagged union the code encodes
as strings ("SENIOR", "EDIT:path", "SEARCH:query", ...); the encoding is
injective, so equality of `Cue` values is equality of the code's cue
strings. -/

inductive Cue where
  | handoff (key : Str)
  | edit (path : Str)
  | createF (path : Str)
  | search (q : Str)
  | fileSearch (p : Str)
  | delete (path : Str)
  | read (path : Str)
  | readUrl (u : Str)
  | subResearch (q : Str)
  | runCommand (c : Str)
  | runTests (c : Str)
  | done
  | projectComplete
deriving DecidableEq

/-- Python `c.lower()` restricted to ASCII letters. -/
def asciiLower (c : Char) : Char :=
  if 'A' ≤ c ∧ c ≤ 'Z' then Char.ofNat (c.toNat + 32) else c

/-- Python `c.upper()` restricted to ASCII letters. -/
def asciiUpper (c : Char) : Char :=
  if 'a' ≤ c ∧ c ≤ 'z' then Char.ofNat (c.toNat - 32) else c

/-- Python regex `\s` on ASCII. -/
def isPySpace (c : Char) : Bool :=
  c == ' ' || c == '\t' || c == '\n' || c == '\r' ||
    c == '\x0b' || c == '\x0c'

/-- Case-insensitive `startswith`, as `re.IGNORECASE` matches the fixed
words of the mention pattern. -/
def hasPreCI : Str → Str → Bool
  | [], _ => true
  | _ :: _, [] => false
  | p :: ps, c :: cs => asciiLower p == asciiLower c && hasPreCI ps cs

/-- Python `s.strip()`. -/
def trimWS (s : Str) : Str :=
  ((s.dropWhile (fun c => isPySpace c)).reverse.dropWhile
    (fun c => isPySpace c)).reverse

/-- Python `s.strip(ch)` for a single character. -/
def stripChar (ch : Char) (s : Str) : Str :=
  ((s.dropWhile (fun c => c == ch)).reverse.dropWhile
    (fun c => c == ch)).reverse

/-- The quote-normalisation the extractor applies to SEARCH / READ_URL /
SUB_RESEARCH payloads: `.strip().strip(DQUOTE).strip(QUOTE)`. -/
def stripQuotes (s : Str) : Str :=
  stripChar (Char.ofNat 39) (stripChar (Char.ofNat 34) (trimWS s))

/-- `re.finditer` over the pattern `PRE([^\]]+)\]` (the bracket cue shape):
leftmost, non-overlapping matches; the payload is every character up to the
first `]`, and must be non-empty.  `i` is the position of the current
suffix, `skip` the characters of a previous match still to pass over. -/
def scanTagged (pre : Str) : Str → Nat → Nat → List (Nat × Str)
  | [], _, _ => []
  | _ :: t, i, skip + 1 => scanTagged pre t (i + 1) skip
  | c :: t, i, 0 =>
    if hasPre pre (c :: t) then
      let after := (c :: t).drop pre.length
      let payload := after.takeWhile (fun x => x ≠ ']')
      if payload ≠ [] ∧ hasPre [']'] (after.drop payload.length) = true then
        (i, payload) :: scanTagged pre t (i + 1) (pre.length + payload.length)
      else scanTagged pre t (i + 1) 0
    else scanTagged pre t (i + 1) 0

/-- `re.finditer` over a literal pattern (the `[→AGENT]` handoff tags). -/
def scanLit (lit : Str) : Str → Nat → Nat → List Nat
  | [], _, _ => []
  | _ :: t, i, skip + 1 => scanLit lit t (i + 1) skip
  | c :: t, i, 0 =>
    if hasPre lit (c :: t) then i :: scanLit lit t (i + 1) (lit.length - 1)
    else scanLit lit t (i + 1) 0

/-- The keys of `AgentOrchestrator.CUE_TO_AGENT`, in dict order. -/
def cueKeys : List Str :=
  ["SENIOR".data, "JUNIOR".data, "TESTER".data, "RESEARCH".data,
   "RESEARCHER".data, "LEAD".data, "SEARCH".data, "FILE_SEARCH".data]

/-- `CUE_TO_AGENT[k]`. -/
def cueToAgent (k : Str) : Str :=
  if k = "SENIOR".data then "Senior Dev".data
  else if k = "JUNIOR".data then "Junior Dev".data
  else if k = "TESTER".data then "Unit Tester".data
  else if k = "RESEARCH".data then "Researcher".data
  else if k = "RESEARCHER".data then "Researcher".data
  else if k = "LEAD".data then "Research Lead".data
  else if k = "SEARCH".data then "Search".data
  else "FileSearch".data

/-- The explicit handoff tag `[→KEY]`. -/
def handoffLit (k : Str) : Str := "[→".data ++ k ++ "]".data

/-- The alternatives of the mention pattern
`@(Senior|Junior|Tester|Researcher)(?:\s*Dev)?`. -/
def mentionNames : List Str :=
  ["Senior".data, "Junior".data, "Tester".data, "Researcher".data]

/-- Match the mention pattern right after an `@`: the name
case-insensitively, then optionally whitespace and `Dev`.  Returns the
upper-cased group 2 and the number of characters matched after the `@`. -/
def mentionMatch (rest : Str) : Option (Str × Nat) :=
  match mentionNames.find? (fun nm => hasPreCI nm rest) with
  | none => none
  | some nm =>
    let after := rest.drop nm.length
    let ws := after.takeWhile (fun c => isPySpace c)
    if hasPreCI "Dev".data (after.drop ws.length) then
      some (nm.map asciiUpper, nm.length + ws.length + 3)
    else some (nm.map asciiUpper, nm.length)

/-- The gratitude words of the 20-character look-back heuristic. -/
def thankWords : List Str :=
  ["thanks".data, "thank".data, "great work".data, "good job".data,
   "excellent".data]

/-- Is the mention at offset `i` preceded (within 20 characters) by a
gratitude phrase?  (`context_before` check of `_extract_cues`.) -/
def mentionSuppressed (content : Str) (i : Nat) : Bool :=
  let ctx := ((content.take i).drop (i - 20)).map asciiLower
  thankWords.any (fun w => containsSub w ctx)

/-- `re.finditer` over the mention pattern with the gratitude suppression
and the `agent_found in CUE_TO_AGENT` check of the source. -/
def scanMentions (content : Str) : Str → Nat → Nat → List (Nat × Str)
  | [], _, _ => []
  | _ :: t, i, skip + 1 => scanMentions content t (i + 1) skip
  | c :: t, i, 0 =>
    if c == '@' then
      match mentionMatch t with
      | some (uname, len2) =>
        if mentionSuppressed content i then scanMentions content t (i + 1) len2
        else if uname ∈ cueKeys then
          (i, uname) :: scanMentions content t (i + 1) len2
        else scanMentions content t (i + 1) len2
      | none => scanMentions content t (i + 1) 0
    else scanMentions content t (i + 1) 0

/-- All cue hits of `_extract_cues` in the order the code collects them,
each with the match start offset: handoff tags, mentions, EDIT, CREATE,
SEARCH, FILE_SEARCH, DELETE, READ, READ_URL, SUB_RESEARCH, RUN_COMMAND,
RUN_TESTS, then DONE and PROJECT_COMPLETE at their `rfind` position. -/
def allHits (content : Str) : List (Nat × Cue) :=
  (cueKeys.map (fun k =>
    (scanLit (handoffLit k) content 0 0).map (fun p => (p, Cue.handoff k)))).join
  ++ (scanMentions content content 0 0).map (fun pn => (pn.1, Cue.handoff pn.2))
  ++ (scanTagged "[EDIT_FILE:".data content 0 0).map
      (fun pc => (pc.1, Cue.edit pc.2))
  ++ (scanTagged "[CREATE_FILE:".data content 0 0).map
      (fun pc => (pc.1, Cue.createF pc.2))
  ++ (scanTagged "[SEARCH:".data content 0 0).map
      (fun pc => (pc.1, Cue.search (stripQuotes pc.2)))
  ++ (scanTagged "[FILE_SEARCH:".data content 0 0).map
      (fun pc => (pc.1, Cue.fileSearch (trimWS pc.2)))
  ++ (scanTagged "[DELETE_FILE:".data content 0 0).map
      (fun pc => (pc.1, Cue.delete pc.2))
  ++ (scanTagged "[READ_FILE:".data content 0 0).map
      (fun pc => (pc.1, Cue.read pc.2))
  ++ (scanTagged "[READ_URL:".data content 0 0).map
      (fun pc => (pc.1, Cue.readUrl (stripQuotes pc.2)))
  ++ (scanTagged "[SUB_RESEARCH:".data content 0 0).map
      (fun pc => (pc.1, Cue.subResearch (stripQuotes pc.2)))
  ++ (scanTagged "[RUN_COMMAND:".data content 0 0).map
      (fun pc => (pc.1, Cue.runCommand (trimWS pc.2)))
  ++ (scanTagged "[RUN_TESTS:".data content 0 0).map
      (fun pc => (pc.1, Cue.runTests (trimWS pc.2)))
  ++ (match rfindSub? "[DONE]".data content with
      | some p => [(p, Cue.done)]
      | none => [])
  ++ (match rfindSub? "[PROJECT_COMPLETE]".data content with
      | some p => [(p, Cue.projectComplete)]
      | none => [])

/-- Stable insertion for `list.sort(key=lambda x: x[0])`. -/
def insHit (x : Nat × Cue) : List (Nat × Cue) → List (Nat × Cue)
  | [] => [x]
  | y :: ys => if x.1 ≤ y.1 then x :: y :: ys else y :: insHit x ys

/-- Python's stable sort by start offset. -/
def sortHits : List (Nat × Cue) → List (Nat × Cue)
  | [] => []
  | x :: xs => insHit x (sortHits xs)

/-- The final de-duplication loop: keep the first appearance of each cue. -/
def dedupKeepFirst (acc : List Cue) : List (Nat × Cue) → List Cue
  | [] => acc.reverse
  | x :: xs =>
    if x.2 ∈ acc then dedupKeepFirst acc xs
    else dedupKeepFirst (x.2 :: acc) xs

/-- `AgentOrchestrator._extract_cues`: collect every hit, sort by start
offset, return unique cues in order of appearance. -/
def extract_cues (content : Str) : List Cue :=
  dedupKeepFirst [] (sortHits (allHits content))

theorem mem_insHit {y x : Nat × Cue} {l : List (Nat × Cue)} :
    y ∈ insHit x l ↔ y = x ∨ y ∈ l := by
  induction l with
  | nil => simp [insHit]
  | cons z zs ih =>
    simp only [insHit]
    split
    · simp
    · simp only [List.mem_cons, ih]
      tauto

theorem mem_sortHits {y : Nat × Cue} {l : List (Nat × Cue)} :
    y ∈ sortHits l ↔ y ∈ l := by
  induction l with
  | nil => simp [sortHits]
  | cons x xs ih => simp [sortHits, mem_insHit, ih]

theorem pairwise_insHit {x : Nat × Cue} {l : List (Nat × Cue)}
    (h : l.Pairwise (fun a b => a.1 ≤ b.1)) :
    (insHit x l).Pairwise (fun a b => a.1 ≤ b.1) := by
  induction l with
  | nil => simp [insHit]
  | cons z zs ih =>
    simp only [insHit]
    rcases List.pairwise_cons.mp h with ⟨hz, hzs⟩
    split
    · rename_i hle
      refine List.pairwise_cons.mpr ⟨?_, h⟩
      intro b hb
      rcases List.mem_cons.mp hb with rfl | hb2
      · exact hle
      · exact le_trans hle (hz b hb2)
    · rename_i hgt
      refine List.pairwise_cons.mpr ⟨?_, ih hzs⟩
      intro b hb
      rcases mem_insHit.mp hb with rfl | hb2
      · omega
      · exact hz b hb2

theorem pairwise_sortHits (l : List (Nat × Cue)) :
    (sortHits l).Pairwise (fun a b => a.1 ≤ b.1) := by
  induction l with
  | nil => simp [sortHits]
  | cons x xs ih => exact pairwise_insHit ih

/-- Recursive characterisation of the keep-first de-duplication loop. -/
def dedupKF : List (Nat × Cue) → List Cue
  | [] => []
  | x :: xs => x.2 :: dedupKF (xs.filter (fun y => y.2 ≠ x.2))
termination_by l => l.length
decreasing_by
  simp only [List.length_cons]
  exact Nat.lt_succ_of_le (List.length_filter_le _ _)

theorem dedupKeepFirst_eq_dedupKF :
    ∀ (l : List (Nat × Cue)) (acc : List Cue),
      dedupKeepFirst acc l =
        acc.reverse ++ dedupKF (l.filter (fun y => y.2 ∉ acc)) := by
  intro l
  induction l with
  | nil => intro acc; simp [dedupKeepFirst, dedupKF]
  | cons x xs ih =>
    intro acc
    simp only [dedupKeepFirst]
    split
    · rename_i hmem
      rw [ih acc]
      congr 2
      simp only [List.filter_cons]
      rw [if_neg (by simpa using hmem)]
    · rename_i hmem
      rw [ih (x.2 :: acc)]
      simp only [List.filter_cons]
      rw [if_pos (by simpa using hmem)]
      rw [dedupKF]
      have hfe : (xs.filter (fun y => decide (y.2 ∉ acc))).filter
          (fun y => decide (y.2 ≠ x.2)) =
          xs.filter (fun y => decide (y.2 ∉ x.2 :: acc)) := by
        rw [List.filter_filter]
        apply List.filter_congr
        intro y hy
        by_cases h1 : y.2 = x.2 <;> by_cases h2 : y.2 ∈ acc <;>
          simp [h1, h2]
      rw [hfe]
      simp

theorem mem_dedupKF {c : Cue} {l : List (Nat × Cue)} :
    c ∈ dedupKF l ↔ ∃ p, (p, c) ∈ l := by
  suffices h : ∀ (n : Nat) (l2 : List (Nat × Cue)), l2.length ≤ n →
      (c ∈ dedupKF l2 ↔ ∃ p, (p, c) ∈ l2) from h l.length l (Nat.le_refl _)
  intro n
  induction n with
  | zero =>
    intro l2 hl
    have : l2 = [] := List.length_eq_zero.mp (by omega)
    subst this
    simp [dedupKF]
  | succ n ih =>
    intro l2 hl
    cases l2 with
    | nil => simp [dedupKF]
    | cons x xs =>
      rw [dedupKF]
      have hlen : (xs.filter (fun y => y.2 ≠ x.2)).length ≤ n := by
        have := List.length_filter_le (fun y => decide (y.2 ≠ x.2)) xs
        simp only [List.length_cons] at hl
        omega
      constructor
      · intro hc
        rcases List.mem_cons.mp hc with rfl | hc2
        · exact ⟨x.1, by simp⟩
        · rcases (ih _ hlen).mp hc2 with ⟨p, hp⟩
          exact ⟨p, List.mem_cons_of_mem _ (List.mem_of_mem_filter hp)⟩
      · rintro ⟨p, hp⟩
        rcases List.mem_cons.mp hp with heq | hp2
        · have hx2 : x.2 = c := by rw [show x = (p, c) from heq.symm]
          rw [hx2]
          exact List.mem_cons_self _ _
        · by_cases hcx : c = x.2
          · rw [hcx]
            exact List.mem_cons_self _ _
          · apply List.mem_cons_of_mem
            refine (ih _ hlen).mpr ⟨p, ?_⟩
            apply List.mem_filter.mpr
            exact ⟨hp2, by simpa using hcx⟩

theorem nodup_dedupKF :
    ∀ (l : List (Nat × Cue)), (dedupKF l).Pairwise (fun a b => a ≠ b) := by
  suffices h : ∀ (n : Nat) (l : List (Nat × Cue)), l.length ≤ n →
      (dedupKF l).Pairwise (fun a b => a ≠ b) by
    intro l
    exact h l.length l (Nat.le_refl _)
  intro n
  induction n with
  | zero =>
    intro l hl
    have : l = [] := List.length_eq_zero.mp (by omega)
    subst this
    simp [dedupKF]
  | succ n ih =>
    intro l hl
    cases l with
    | nil => simp [dedupKF]
    | cons x xs =>
      rw [dedupKF]
      have hlen : (xs.filter (fun y => y.2 ≠ x.2)).length ≤ n := by
        have := List.length_filter_le (fun y => decide (y.2 ≠ x.2)) xs
        simp only [List.length_cons] at hl
        omega
      refine List.pairwise_cons.mpr ⟨?_, ih _ hlen⟩
      intro b hb
      rcases mem_dedupKF.mp hb with ⟨p, hp⟩
      have hmf := List.mem_filter.mp hp
      intro heq
      subst heq
      simp at hmf

/-- `k` is the position of the first hit of cue `c` among `hits`. -/
def IsMinHit (hits : List (Nat × Cue)) (c : Cue) (k : Nat) : Prop :=
  (k, c) ∈ hits ∧ ∀ p, (p, c) ∈ hits → k ≤ p

theorem isMinHit_iff_of_mem {h1 h2 : List (Nat × Cue)}
    (hmem : ∀ x, x ∈ h1 ↔ x ∈ h2) {c : Cue} {k : Nat} :
    IsMinHit h1 c k ↔ IsMinHit h2 c k := by
  unfold IsMinHit
  constructor
  · rintro ⟨ha, hb⟩
    exact ⟨(hmem _).mp ha, fun p hp => hb p ((hmem _).mpr hp)⟩
  · rintro ⟨ha, hb⟩
    exact ⟨(hmem _).mpr ha, fun p hp => hb p ((hmem _).mp hp)⟩

theorem dedupKF_pairwise_min :
    ∀ (n : Nat) (s : List (Nat × Cue)), s.length ≤ n →
      s.Pairwise (fun a b => a.1 ≤ b.1) →
      (dedupKF s).Pairwise (fun c d => ∀ kc kd,
        IsMinHit s c kc → IsMinHit s d kd → kc ≤ kd) := by
  intro n
  induction n with
  | zero =>
    intro s hl _
    have : s = [] := List.length_eq_zero.mp (by omega)
    subst this
    simp [dedupKF]
  | succ n ih =>
    intro s hl hs
    cases s with
    | nil => simp [dedupKF]
    | cons x xs =>
      rw [dedupKF]
      obtain ⟨hx, hxs⟩ := List.pairwise_cons.mp hs
      have hlen : (xs.filter (fun y => y.2 ≠ x.2)).length ≤ n := by
        have := List.length_filter_le (fun y => decide (y.2 ≠ x.2)) xs
        simp only [List.length_cons] at hl
        omega
      have hsort2 : (xs.filter (fun y => y.2 ≠ x.2)).Pairwise
          (fun a b => a.1 ≤ b.1) :=
        hxs.sublist (List.filter_sublist xs)
      have hmemiff : ∀ c : Cue, c ≠ x.2 → ∀ p : Nat,
          ((p, c) ∈ x :: xs ↔ (p, c) ∈ xs.filter (fun y => y.2 ≠ x.2)) := by
        intro c hc p
        constructor
        · intro hp
          rcases List.mem_cons.mp hp with heq | hp2
          · exact absurd (by rw [show x = (p, c) from heq.symm]) hc.symm
          · exact List.mem_filter.mpr ⟨hp2, by simpa using hc⟩
        · intro hp
          exact List.mem_cons_of_mem _ (List.mem_of_mem_filter hp)
      refine List.pairwise_cons.mpr ⟨?_, ?_⟩
      · intro d hd kc kd hminc hmind
        have hdne : d ≠ x.2 := by
          rcases mem_dedupKF.mp hd with ⟨p, hp⟩
          have := (List.mem_filter.mp hp).2
          simpa using this
        have hkc : kc ≤ x.1 := by
          apply hminc.2
          have : (x.1, x.2) = x := rfl
          rw [this]
          exact List.mem_cons_self _ _
        have hkd : x.1 ≤ kd := by
          have hin := hmind.1
          rcases List.mem_cons.mp hin with heq | hin2
          · exact absurd (by rw [show x = (kd, d) from heq.symm]) hdne.symm
          · exact hx _ hin2
        omega
      · have hbase := ih (xs.filter (fun y => y.2 ≠ x.2)) hlen hsort2
        apply hbase.imp_of_mem
        intro c d hc hd h kc kd hminc hmind
        have hcne : c ≠ x.2 := by
          rcases mem_dedupKF.mp hc with ⟨p, hp⟩
          simpa using (List.mem_filter.mp hp).2
        have hdne : d ≠ x.2 := by
          rcases mem_dedupKF.mp hd with ⟨p, hp⟩
          simpa using (List.mem_filter.mp hp).2
        have htrans : ∀ (e : Cue), e ≠ x.2 → ∀ ke : Nat,
            IsMinHit (x :: xs) e ke →
            IsMinHit (xs.filter (fun y => y.2 ≠ x.2)) e ke := by
          intro e he ke hmin
          exact ⟨(hmemiff e he ke).mp hmin.1,
            fun p hp => hmin.2 p ((hmemiff e he p).mpr hp)⟩
        exact h kc kd (htrans c hcne kc hminc) (htrans d hdne kd hmind)

theorem extract_cues_eq_dedupKF (content : Str) :
    extract_cues content = dedupKF (sortHits (allHits content)) := by
  unfold extract_cues
  rw [dedupKeepFirst_eq_dedupKF]
  simp only [List.reverse_nil, List.nil_append]
  congr 1
  apply List.filter_eq_self.mpr
  intro y hy
  simp

theorem done_hit_pos {content : Str} {p : Nat}
    (h : (p, Cue.done) ∈ allHits content) :
    rfindSub? "[DONE]".data content = some p := by
  cases hd : rfindSub? "[DONE]".data content with
  | some q =>
    cases hpc : rfindSub? "[PROJECT_COMPLETE]".data content with
    | some r =>
      simp [allHits, hd, hpc] at h
      rw [h]
    | none =>
      simp [allHits, hd, hpc] at h
      rw [h]
  | none =>
    cases hpc : rfindSub? "[PROJECT_COMPLETE]".data content with
    | some r => simp [allHits, hd, hpc] at h
    | none => simp [allHits, hd, hpc] at h

theorem pc_hit_pos {content : Str} {p : Nat}
    (h : (p, Cue.projectComplete) ∈ allHits content) :
    rfindSub? "[PROJECT_COMPLETE]".data content = some p := by
  cases hpc : rfindSub? "[PROJECT_COMPLETE]".data content with
  | some q =>
    cases hd : rfindSub? "[DONE]".data content with
    | some r =>
      simp [allHits, hd, hpc] at h
      rw [h]
    | none =>
      simp [allHits, hd, hpc] at h
      rw [h]
  | none =>
    cases hd : rfindSub? "[DONE]".data content with
    | some r => simp [allHits, hd, hpc] at h
    | none => simp [allHits, hd, hpc] at h

/-- C3: `_extract_cues` returns the detected cues sorted by occurrence
offset — pairwise, any two successive returned cues have non-decreasing
first-hit positions (`IsMinHit`: each cue is positioned at the first
occurrence of its unique (type, payload) pair among the detected hits);
duplicates of the same (type, payload) collapse to a single entry (the
returned list is pairwise distinct, and membership agrees with the hit
set); DONE and PROJECT_COMPLETE are positioned at the last occurrence of
their literal in the text. -/
theorem c3_cue_ordering (content : Str) :
    (extract_cues content).Pairwise (fun a b => a ≠ b) ∧
      (extract_cues content).Pairwise (fun a b => ∀ ka kb,
        IsMinHit (allHits content) a ka →
        IsMinHit (allHits content) b kb → ka ≤ kb) ∧
      (∀ c, c ∈ extract_cues content ↔ ∃ p, (p, c) ∈ allHits content) ∧
      (∀ p, (p, Cue.done) ∈ allHits content →
        hasPre "[DONE]".data (content.drop p) = true ∧
        ∀ q, hasPre "[DONE]".data (content.drop q) = true → q ≤ p) ∧
      (∀ p, (p, Cue.projectComplete) ∈ allHits content →
        hasPre "[PROJECT_COMPLETE]".data (content.drop p) = true ∧
        ∀ q, hasPre "[PROJECT_COMPLETE]".data (content.drop q) = true →
          q ≤ p) := by
  refine ⟨?_, ?_, ?_, ?_, ?_⟩
  · rw [extract_cues_eq_dedupKF]
    exact nodup_dedupKF _
  · rw [extract_cues_eq_dedupKF]
    have hp := dedupKF_pairwise_min (sortHits (allHits content)).length
      (sortHits (allHits content)) (Nat.le_refl _)
      (pairwise_sortHits (allHits content))
    apply hp.imp
    intro a b hab ka kb h1 h2
    exact hab ka kb
      ((isMinHit_iff_of_mem (fun x => mem_sortHits)).mpr h1)
      ((isMinHit_iff_of_mem (fun x => mem_sortHits)).mpr h2)
  · intro c
    rw [extract_cues_eq_dedupKF, mem_dedupKF]
    constructor
    · rintro ⟨p, hp⟩
      exact ⟨p, mem_sortHits.mp hp⟩
    · rintro ⟨p, hp⟩
      exact ⟨p, mem_sortHits.mpr hp⟩
  · intro p hp
    have hpos := done_hit_pos hp
    refine ⟨rfindSub?_some_hasPre hpos, ?_⟩
    intro q hq
    by_contra hgt
    have hmax := rfindSub?_some_max (by decide) hpos q (by omega)
    rw [hq] at hmax
    cases hmax
  · intro p hp
    have hpos := pc_hit_pos hp
    refine ⟨rfindSub?_some_hasPre hpos, ?_⟩
    intro q hq
    by_contra hgt
    have hmax := rfindSub?_some_max (by decide) hpos q (by omega)
    rw [hq] at hmax
    cases hmax

/-- C3 witness: on `[DONE] [→SENIOR] [DONE]` the extractor collapses the
duplicate DONE, positions it at its last occurrence (after the handoff
tag), and the theorem's distinctness conjunct applies to this input. -/
theorem c3_cue_ordering_witness :
    extract_cues "[DONE] [→SENIOR] [DONE]".data =
      [Cue.handoff "SENIOR".data, Cue.done] ∧
      (extract_cues "[DONE] [→SENIOR] [DONE]".data).Pairwise
        (fun a b => a ≠ b) :=
  ⟨by decide, (c3_cue_ordering "[DONE] [→SENIOR] [DONE]".data).1⟩

/-! Mission checklist tracker (`_extract_mission_checklist`,
`_extract_checklist_updates`, `_is_checklist_complete`, orchestrator.py
lines 85-201). -/

/-- One checklist item (`{step, description, agent, done}`). -/
structure CLItem where
  step : Nat
  description : Str
  agent : Str
  done : Bool
deriving DecidableEq

/-- `re.search(OPEN + '(.*?)' + CLOSE, s, re.DOTALL)`: the text between the
first opening marker and the first closing marker after it. -/
def firstBlock? (openL closeL s : Str) : Option Str :=
  match findSub? openL s with
  | none => none
  | some i =>
    let rest := s.drop (i + openL.length)
    match findSub? closeL rest with
    | none => none
    | some j => some (rest.take j)

/-- `re.findall(OPEN + '(.*?)' + CLOSE, s, re.DOTALL)`: every non-overlapping
block, scanning left to right.  `fuel` bounds the recursion; callers pass
`s.length + 1`, more than the number of possible blocks. -/
def allBlocks (openL closeL : Str) : Nat → Str → List Str
  | 0, _ => []
  | fuel + 1, s =>
    match findSub? openL s with
    | none => []
    | some i =>
      let rest := s.drop (i + openL.length)
      match findSub? closeL rest with
      | none => []
      | some j =>
        rest.take j ::
          allBlocks openL closeL fuel (rest.drop (j + closeL.length))

/-- Python `s.split(NL)` for the newline character. -/
def splitNl : Str → List Str
  | [] => [[]]
  | c :: t =>
    if c = '\n' then [] :: splitNl t
    else
      match splitNl t with
      | h :: r => (c :: h) :: r
      | [] => [[c]]

/-- Value of a non-empty digit string (regex group `(\d+)` via `int`). -/
def digitsToNat (ds : Str) : Nat :=
  ds.foldl (fun n c => n * 10 + (c.toNat - 48)) 0

/-- Python regex `\w` (ASCII). -/
def isWordChar (c : Char) : Bool := c.isAlphanum || c == '_'

/-- The unique way a line tail can end in `(→AGENT)`: position of the `(`
and the agent word, with the closing `)` the last character. -/
def agentSuffix? (r : Str) : Option (Nat × Str) :=
  (List.range r.length).findSome? (fun p =>
    if hasPre "(→".data (r.drop p) then
      let w := (r.drop (p + 2)).take (r.length - p - 3)
      if w ≠ [] ∧ w.all isWordChar ∧ r.drop (p + 2 + w.length) = [')'] then
        some (p, w)
      else none
    else none)

/-- The lazy group `(.+?)(?:\s*\(→(\w+)\))?$` applied to a tail with no
leading whitespace: the shortest non-empty description such that the rest
is an optional whitespace-then-`(→AGENT)` suffix ending the line. -/
def parseDescAgent (rest : Str) : Option (Str × Option Str) :=
  if rest = [] then none
  else
    match agentSuffix? rest with
    | some (p, w) =>
      let spLen := ((rest.take p).reverse.takeWhile (fun c => isPySpace c)).length
      if 1 ≤ p - spLen then some (rest.take (p - spLen), some w)
      else some (rest, none)
    | none => some (rest, none)

/-- The `\s*` before the lazy description group, with its backtracking when
the tail is all whitespace. -/
def parseTail (r5 : Str) : Option (Str × Option Str) :=
  let rest := r5.dropWhile (fun c => isPySpace c)
  if rest ≠ [] then parseDescAgent rest
  else if r5 ≠ [] then some (r5.take 1, none)
  else none

/-- `re.match(r'-\s*\[([ x])\]\s*(\d+)\.\s*(.+?)(?:\s*\(→(\w+)\))?$', line)`
of `_extract_mission_checklist`, on an already stripped line. -/
def parseItemLine? (line : Str) : Option CLItem :=
  match line with
  | '-' :: r1 =>
    match r1.dropWhile (fun c => isPySpace c) with
    | '[' :: d :: ']' :: r3 =>
      if d = ' ' ∨ d = 'x' then
        let r4 := r3.dropWhile (fun c => isPySpace c)
        let ds := r4.takeWhile (fun c => c.isDigit)
        if ds ≠ [] then
          match r4.drop ds.length with
          | '.' :: r5 =>
            match parseTail r5 with
            | some (desc, ag) =>
              some ⟨digitsToNat ds, trimWS desc,
                ag.getD "SENIOR".data, d = 'x'⟩
            | none => none
          | _ => none
        else none
      else none
    | _ => none
  | _ => none

/-- `re.match(r'-\s*\[(x)\]\s*(\d+)\.\s*(.+)', line)` of
`_extract_checklist_updates`: only the step number is used. -/
def parseUpdateLine? (line : Str) : Option Nat :=
  match line with
  | '-' :: r1 =>
    match r1.dropWhile (fun c => isPySpace c) with
    | '[' :: 'x' :: ']' :: r3 =>
      let r4 := r3.dropWhile (fun c => isPySpace c)
      let ds := r4.takeWhile (fun c => c.isDigit)
      if ds ≠ [] then
        match r4.drop ds.length with
        | '.' :: r5 =>
          if r5 ≠ [] then some (digitsToNat ds)
          else none
        | _ => none
      else none
    | _ => none
  | _ => none

/-- `_extract_mission_checklist`: parse the first block, replace the
checklist and mission description wholesale, report whether at least one
item parsed. -/
def extractMissionChecklist (content : Str) (cl : List CLItem)
    (desc : Str) : Bool × List CLItem × Str :=
  match firstBlock? "[MISSION_CHECKLIST]".data "[/MISSION_CHECKLIST]".data
      content with
  | none => (false, cl, desc)
  | some block =>
    let lines := (splitNl (trimWS block)).map trimWS
    let res := lines.foldl (fun acc line =>
      if hasPre "Mission:".data line then (acc.1, trimWS (line.drop 8))
      else
        match parseItemLine? line with
        | some item => (acc.1 ++ [item], acc.2)
        | none => acc) (([] : List CLItem), ([] : Str))
    (res.1 ≠ [], res.1, res.2)

/-- Find the first checklist item with the given step number that is not
yet done and flip it (the inner `for item ... break` loop). -/
def markFirst : List CLItem → Nat → Option (List CLItem)
  | [], _ => none
  | it :: rest, n =>
    if it.step = n ∧ it.done = false then
      some ({ it with done := true } :: rest)
    else (markFirst rest n).map (it :: ·)

/-- Apply a sequence of `[x]`-step numbers to the checklist, counting newly
completed items (`updates_applied`). -/
def applyUpdateSteps (cl : List CLItem) (steps : List Nat) :
    List CLItem × Nat :=
  steps.foldl (fun acc n =>
    match markFirst acc.1 n with
    | some cl2 => (cl2, acc.2 + 1)
    | none => acc) (cl, 0)

/-- The `[x]` step numbers of every `[CHECKLIST_UPDATE]` block of the text,
in order. -/
def parseUpdateSteps (content : Str) : List Nat :=
  ((allBlocks "[CHECKLIST_UPDATE]".data "[/CHECKLIST_UPDATE]".data
      (content.length + 1) content).map
    (fun b => ((splitNl (trimWS b)).map trimWS).filterMap
      parseUpdateLine?)).join

/-- `_extract_checklist_updates`: returns the updated checklist and the
number of items newly completed. -/
def extractChecklistUpdates (content : Str) (cl : List CLItem) :
    List CLItem × Nat :=
  applyUpdateSteps cl (parseUpdateSteps content)

/-- `_is_checklist_complete`. -/
def isChecklistComplete (cl : List CLItem) : Bool :=
  cl.all (fun item => item.done)

/-- Entry-wise effect of `apply_updates`: step, description and owner are
untouched and `done` can only go from false to true. -/
def DoneLe (a b : CLItem) : Prop :=
  b.step = a.step ∧ b.description = a.description ∧ b.agent = a.agent ∧
    (a.done = true → b.done = true)

theorem doneLe_refl (a : CLItem) : DoneLe a a := ⟨rfl, rfl, rfl, id⟩

theorem doneLe_trans {a b c : CLItem} (h1 : DoneLe a b) (h2 : DoneLe b c) :
    DoneLe a c :=
  ⟨h2.1.trans h1.1, h2.2.1.trans h1.2.1, h2.2.2.1.trans h1.2.2.1,
    fun h => h2.2.2.2 (h1.2.2.2 h)⟩

theorem forall2_doneLe_refl (l : List CLItem) : List.Forall₂ DoneLe l l :=
  List.forall₂_same.mpr (fun a _ => doneLe_refl a)

theorem forall2_doneLe_trans {a b c : List CLItem}
    (h1 : List.Forall₂ DoneLe a b) (h2 : List.Forall₂ DoneLe b c) :
    List.Forall₂ DoneLe a c := by
  induction h1 generalizing c with
  | nil => cases h2; exact List.Forall₂.nil
  | cons hab h1r ih =>
    cases h2 with
    | cons hbc h2r => exact List.Forall₂.cons (doneLe_trans hab hbc) (ih h2r)

theorem markFirst_forall2 {cl cl2 : List CLItem} {n : Nat}
    (h : markFirst cl n = some cl2) : List.Forall₂ DoneLe cl cl2 := by
  induction cl generalizing cl2 with
  | nil => simp [markFirst] at h
  | cons it rest ih =>
    simp only [markFirst] at h
    split at h
    · cases h
      exact List.Forall₂.cons ⟨rfl, rfl, rfl, fun _ => rfl⟩
        (forall2_doneLe_refl rest)
    · cases hm : markFirst rest n with
      | none => rw [hm] at h; cases h
      | some r2 =>
        rw [hm] at h
        simp only [Option.map_some'] at h
        cases h
        exact List.Forall₂.cons (doneLe_refl it) (ih hm)

theorem markFirst_none_iff {cl : List CLItem} {n : Nat} :
    markFirst cl n = none ↔
      ∀ it ∈ cl, it.step = n → it.done = true := by
  induction cl with
  | nil => simp [markFirst]
  | cons it rest ih =>
    simp only [markFirst]
    split
    · rename_i hcond
      constructor
      · intro h
        cases h
      · intro h
        have := h it (List.mem_cons_self _ _) hcond.1
        rw [hcond.2] at this
        exact Bool.noConfusion this
    · rename_i hcond
      rw [Option.map_eq_none', ih]
      constructor
      · intro h it2 hmem hstep
        rcases List.mem_cons.mp hmem with rfl | hm2
        · by_contra hnd
          exact hcond ⟨hstep, by simpa using hnd⟩
        · exact h it2 hm2 hstep
      · intro h it2 hmem hstep
        exact h it2 (List.mem_cons_of_mem _ hmem) hstep

theorem markFirst_steps_eq {cl cl2 : List CLItem} {n : Nat}
    (h : markFirst cl n = some cl2) :
    cl2.map (fun it => it.step) = cl.map (fun it => it.step) := by
  induction cl generalizing cl2 with
  | nil => simp [markFirst] at h
  | cons it rest ih =>
    simp only [markFirst] at h
    split at h
    · cases h
      simp
    · cases hm : markFirst rest n with
      | none => rw [hm] at h; cases h
      | some r2 =>
        rw [hm] at h
        simp only [Option.map_some'] at h
        cases h
        simp [ih hm]

theorem markFirst_all_done {cl cl2 : List CLItem} {n : Nat}
    (hnd : (cl.map (fun it => it.step)).Nodup)
    (h : markFirst cl n = some cl2) :
    ∀ it ∈ cl2, it.step = n → it.done = true := by
  induction cl generalizing cl2 with
  | nil => simp [markFirst] at h
  | cons it rest ih =>
    simp only [markFirst] at h
    simp only [List.map_cons, List.nodup_cons] at hnd
    split at h
    · rename_i hcond
      cases h
      intro it2 hmem hstep
      rcases List.mem_cons.mp hmem with rfl | hm2
      · rfl
      · exfalso
        apply hnd.1
        rw [hcond.1, ← hstep]
        exact List.mem_map.mpr ⟨it2, hm2, rfl⟩
    · rename_i hcond
      cases hm : markFirst rest n with
      | none => rw [hm] at h; cases h
      | some r2 =>
        rw [hm] at h
        simp only [Option.map_some'] at h
        cases h
        intro it2 hmem hstep
        rcases List.mem_cons.mp hmem with rfl | hm2
        · by_contra hnd2
          exact hcond ⟨hstep, by simpa using hnd2⟩
        · exact ih hnd.2 hm it2 hm2 hstep

theorem markFirst_preserve_done {cl cl2 : List CLItem} {n m : Nat}
    (h : markFirst cl n = some cl2)
    (hall : ∀ it ∈ cl, it.step = m → it.done = true) :
    ∀ it ∈ cl2, it.step = m → it.done = true := by
  induction cl generalizing cl2 with
  | nil => simp [markFirst] at h
  | cons it rest ih =>
    simp only [markFirst] at h
    split at h
    · cases h
      intro it2 hmem hstep
      rcases List.mem_cons.mp hmem with rfl | hm2
      · rfl
      · exact hall it2 (List.mem_cons_of_mem _ hm2) hstep
    · cases hm : markFirst rest n with
      | none => rw [hm] at h; cases h
      | some r2 =>
        rw [hm] at h
        simp only [Option.map_some'] at h
        cases h
        intro it2 hmem hstep
        rcases List.mem_cons.mp hmem with rfl | hm2
        · exact hall it2 (List.mem_cons_self _ _) hstep
        · exact ih hm
            (fun a ha hs => hall a (List.mem_cons_of_mem _ ha) hs)
            it2 hm2 hstep

/-- The hidden counter accumulator of `apply_updates`, as a standalone
step function of the fold. -/
def applyStep (acc : List CLItem × Nat) (n : Nat) : List CLItem × Nat :=
  match markFirst acc.1 n with
  | some cl2 => (cl2, acc.2 + 1)
  | none => acc

theorem applyUpdateSteps_eq_foldl (cl : List CLItem) (steps : List Nat) :
    applyUpdateSteps cl steps = steps.foldl applyStep (cl, 0) := rfl

theorem applyStep_shift (steps : List Nat) :
    ∀ (cl : List CLItem) (k : Nat),
      steps.foldl applyStep (cl, k) =
        ((steps.foldl applyStep (cl, 0)).1,
          k + (steps.foldl applyStep (cl, 0)).2) := by
  induction steps with
  | nil => intro cl k; simp
  | cons n rest ih =>
    intro cl k
    simp only [List.foldl_cons]
    cases hm : markFirst cl n with
    | none =>
      simp only [applyStep, hm]
      exact ih cl k
    | some cl2 =>
      simp only [applyStep, hm]
      rw [ih cl2 (k + 1), ih cl2 1]
      refine Prod.ext rfl ?_
      simp only
      omega

theorem applyUpdateSteps_cons (cl : List CLItem) (n : Nat)
    (rest : List Nat) :
    applyUpdateSteps cl (n :: rest) =
      match markFirst cl n with
      | some cl2 =>
        ((applyUpdateSteps cl2 rest).1, (applyUpdateSteps cl2 rest).2 + 1)
      | none => applyUpdateSteps cl rest := by
  cases hm : markFirst cl n with
  | none =>
    simp only [applyUpdateSteps_eq_foldl, List.foldl_cons, applyStep, hm]
  | some cl2 =>
    simp only [applyUpdateSteps_eq_foldl, List.foldl_cons, applyStep, hm]
    rw [applyStep_shift rest cl2 1]
    refine Prod.ext rfl ?_
    simp only
    omega

theorem applyUpdateSteps_forall2 (steps : List Nat) (cl : List CLItem) :
    List.Forall₂ DoneLe cl (applyUpdateSteps cl steps).1 := by
  induction steps generalizing cl with
  | nil => exact forall2_doneLe_refl cl
  | cons n rest ih =>
    cases hm : markFirst cl n with
    | none =>
      simp only [applyUpdateSteps_cons, hm]
      exact ih cl
    | some cl2 =>
      simp only [applyUpdateSteps_cons, hm]
      exact forall2_doneLe_trans (markFirst_forall2 hm) (ih cl2)

theorem applyUpdateSteps_steps_eq (steps : List Nat) (cl : List CLItem) :
    ((applyUpdateSteps cl steps).1).map (fun it => it.step) =
      cl.map (fun it => it.step) := by
  induction steps generalizing cl with
  | nil => rfl
  | cons n rest ih =>
    cases hm : markFirst cl n with
    | none =>
      simp only [applyUpdateSteps_cons, hm]
      exact ih cl
    | some cl2 =>
      simp only [applyUpdateSteps_cons, hm]
      rw [ih cl2, markFirst_steps_eq hm]

theorem applyUpdateSteps_preserve_done {m : Nat} (steps : List Nat)
    (cl : List CLItem)
    (hall : ∀ it ∈ cl, it.step = m → it.done = true) :
    ∀ it ∈ (applyUpdateSteps cl steps).1, it.step = m → it.done = true := by
  induction steps generalizing cl with
  | nil => exact hall
  | cons n rest ih =>
    cases hm : markFirst cl n with
    | none =>
      simp only [applyUpdateSteps_cons, hm]
      exact ih cl hall
    | some cl2 =>
      simp only [applyUpdateSteps_cons, hm]
      exact ih cl2 (markFirst_preserve_done hm hall)

theorem applyUpdateSteps_all_done (steps : List Nat) (cl : List CLItem)
    (hnd : (cl.map (fun it => it.step)).Nodup) :
    ∀ n ∈ steps, ∀ it ∈ (applyUpdateSteps cl steps).1,
      it.step = n → it.done = true := by
  induction steps generalizing cl with
  | nil => simp
  | cons n0 rest ih =>
    cases hm : markFirst cl n0 with
    | none =>
      simp only [applyUpdateSteps_cons, hm]
      intro n hn it hit hstep
      rcases List.mem_cons.mp hn with rfl | hn2
      · exact applyUpdateSteps_preserve_done rest cl
          (markFirst_none_iff.mp hm) it hit hstep
      · exact ih cl hnd n hn2 it hit hstep
    | some cl2 =>
      simp only [applyUpdateSteps_cons, hm]
      intro n hn it hit hstep
      have hnd2 : (cl2.map (fun it => it.step)).Nodup := by
        rw [markFirst_steps_eq hm]; exact hnd
      rcases List.mem_cons.mp hn with rfl | hn2
      · exact applyUpdateSteps_preserve_done rest cl2
          (markFirst_all_done hnd hm) it hit hstep
      · exact ih cl2 hnd2 n hn2 it hit hstep

theorem applyUpdateSteps_none_fixed (steps : List Nat) (cl : List CLItem)
    (h : ∀ n ∈ steps, markFirst cl n = none) :
    applyUpdateSteps cl steps = (cl, 0) := by
  induction steps with
  | nil => rfl
  | cons n rest ih =>
    simp only [applyUpdateSteps_cons, h n (List.mem_cons_self _ _)]
    exact ih (fun m hm => h m (List.mem_cons_of_mem _ hm))

theorem applyUpdateSteps_idem (cl : List CLItem) (steps : List Nat)
    (hnd : (cl.map (fun it => it.step)).Nodup) :
    applyUpdateSteps (applyUpdateSteps cl steps).1 steps =
      ((applyUpdateSteps cl steps).1, 0) := by
  apply applyUpdateSteps_none_fixed
  intro n hn
  rw [markFirst_none_iff]
  exact applyUpdateSteps_all_done steps cl hnd n hn

/-- **C6** (amended).  Under `_extract_checklist_updates`, every checklist
item keeps its step number, description and assigned agent, and its `done`
flag only transitions false→true, never reverting (the `Forall₂ DoneLe`
conjunct, with no side condition); and provided the checklist's step
numbers are pairwise distinct, applying the same text's
`[CHECKLIST_UPDATE]` blocks a second time flips no item and reports 0
newly-completed items.  The distinctness proviso is needed: with two items
sharing a step number the second application flips the second copy
(`c6_checklist_idem_counterexample`). -/
theorem c6_checklist_idempotent (content : Str) (cl : List CLItem) :
    List.Forall₂ DoneLe cl (extractChecklistUpdates content cl).1 ∧
      ((cl.map (fun it => it.step)).Nodup →
        extractChecklistUpdates content
            (extractChecklistUpdates content cl).1 =
          ((extractChecklistUpdates content cl).1, 0)) :=
  ⟨applyUpdateSteps_forall2 _ cl,
    fun hnd => applyUpdateSteps_idem cl _ hnd⟩

theorem c6_checklist_idempotent_witness :
    ((([⟨1, "Write parser".data, "SENIOR".data, false⟩,
        ⟨2, "Add tests".data, "JUNIOR".data, false⟩] : List CLItem)).map
          (fun it => it.step)).Nodup ∧
      extractChecklistUpdates
          "[CHECKLIST_UPDATE]\n- [x] 1. Write parser\n[/CHECKLIST_UPDATE]".data
          (extractChecklistUpdates
            "[CHECKLIST_UPDATE]\n- [x] 1. Write parser\n[/CHECKLIST_UPDATE]".data
            [⟨1, "Write parser".data, "SENIOR".data, false⟩,
             ⟨2, "Add tests".data, "JUNIOR".data, false⟩]).1 =
        ((extractChecklistUpdates
            "[CHECKLIST_UPDATE]\n- [x] 1. Write parser\n[/CHECKLIST_UPDATE]".data
            [⟨1, "Write parser".data, "SENIOR".data, false⟩,
             ⟨2, "Add tests".data, "JUNIOR".data, false⟩]).1, 0) :=
  ⟨by decide,
    (c6_checklist_idempotent
      "[CHECKLIST_UPDATE]\n- [x] 1. Write parser\n[/CHECKLIST_UPDATE]".data
      [⟨1, "Write parser".data, "SENIOR".data, false⟩,
       ⟨2, "Add tests".data, "JUNIOR".data, false⟩]).2 (by decide)⟩

/-- **C6 counterexample**: the unqualified second-application claim is
false.  With two checklist items sharing step number 1, `markFirst` flips
the first copy on the first application and the second copy on the second,
which therefore reports 1 newly-completed item, not 0. -/
theorem c6_checklist_idem_counterexample :
    ¬ (∀ (content : Str) (cl : List CLItem),
        extractChecklistUpdates content
            (extractChecklistUpdates content cl).1 =
          ((extractChecklistUpdates content cl).1, 0)) := by
  intro h
  have hx := h "[CHECKLIST_UPDATE]\n- [x] 1. A\n[/CHECKLIST_UPDATE]".data
    [⟨1, "A".data, "SENIOR".data, false⟩,
     ⟨1, "B".data, "SENIOR".data, false⟩]
  revert hx
  decide

/-! ## FileManager (`src/backend/services/file_manager.py`)

POSIX model (`os.name ≠ 'nt'`).  An absolute path is a list of
components; the disk is an association list from resolved absolute paths
to file contents and holds regular files only, so the `OSError` branches
of `apply_change` (directory/file collisions caught by its `try`) do not
arise and no symlinks affect `resolve()`.  `uuid.uuid4()[:8]` is modelled
by a fresh counter; `pending_changes` is a Python dict, i.e. an ordered
map with update-in-place insertion. -/

deriving instance DecidableEq for Except

/-- `path.lstrip("/\x5c")`. -/
def lstripSlashes (p : Str) : Str :=
  p.dropWhile (fun c => c = '/' ∨ c = '\\')

/-- `.replace("\x5c", "/")`. -/
def replBack (p : Str) : Str :=
  p.map (fun c => if c = '\\' then '/' else c)

/-- Python `s.split(sep)` for a one-character separator. -/
def splitChar (sep : Char) : Str → List Str
  | [] => [[]]
  | c :: t =>
    if c = sep then [] :: splitChar sep t
    else
      match splitChar sep t with
      | h :: r => (c :: h) :: r
      | [] => [[c]]

/-- `(active_root / clean_path).resolve()`: fold the slash-separated parts
over the root's components; empty parts and `.` are skipped, `..` pops
(never above the filesystem root). -/
def resolveComps (root : List Str) (parts : List Str) : List Str :=
  parts.foldl (fun acc p =>
    if p = [] ∨ p = ".".data then acc
    else if p = "..".data then acc.dropLast
    else acc ++ [p]) root

/-- `str(Path(...))` of an absolute path from components. -/
def renderAbs (comps : List Str) : Str :=
  match comps with
  | [] => "/".data
  | _ => (comps.map (fun c => '/' :: c)).join

/-- `str(Path(...))` of a relative path from components
(`Path(".")` when empty). -/
def renderRel (comps : List Str) : Str :=
  match comps with
  | [] => ".".data
  | c :: rest => c ++ (rest.map (fun p => '/' :: p)).join

/-- `full_path.relative_to(root)`: the leftover components when `root`
is a component-wise prefix of `full`, else `none` (`ValueError`). -/
def stripRoot : List Str → List Str → Option (List Str)
  | [], rest => some rest
  | r :: rt, f :: ft => if f = r then stripRoot rt ft else none
  | _ :: _, [] => none

/-- `FileManager._sanitize_path` with an active workspace: lstrip slashes,
backslash→slash, resolve against the root, then the *string* `startswith`
containment check (note: a sibling such as `/ws2` passes the check against
root `/ws`). -/
def sanitizePath (root : List Str) (path : Str) : Except Str (List Str) :=
  let cleanPath := replBack (lstripSlashes path)
  let full := resolveComps root (splitChar '/' cleanPath)
  if hasPre (renderAbs root) (renderAbs full) then Except.ok full
  else Except.error ("Path must be within ".data ++ renderAbs root)

/-- The `PendingChange` dataclass (the `created_at` timestamp is
irrelevant to every claim and omitted). -/
structure PendingChangeR where
  path : Str
  action : Str
  new_content : Str
  old_content : Option Str
  agent : Option Str
deriving DecidableEq

/-- `FileManager` state: resolved workspace components, the disk, the
`pending_changes` dict and the id source. -/
structure FMState where
  workspace : List Str
  files : List (List Str × Str)
  pending : List (Nat × PendingChangeR)
  nextId : Nat
deriving DecidableEq

/-- Disk read: content of the regular file at a resolved path. -/
def fsGet (k : List Str) : List (List Str × Str) → Option Str
  | [] => none
  | (k2, v) :: t => if k2 = k then some v else fsGet k t

/-- Disk write (overwrite or create). -/
def fsWrite (files : List (List Str × Str)) (k : List Str) (v : Str) :
    List (List Str × Str) :=
  match files with
  | [] => [(k, v)]
  | (k2, v2) :: t => if k2 = k then (k, v) :: t else (k2, v2) :: fsWrite t k v

/-- `unlink` guarded by `exists()`: erasing a missing path is a no-op. -/
def fsErase (files : List (List Str × Str)) (k : List Str) :
    List (List Str × Str) :=
  match files with
  | [] => []
  | (k2, v2) :: t => if k2 = k then t else (k2, v2) :: fsErase t k

/-- Dict lookup on `pending_changes`. -/
def plookup (p : List (Nat × PendingChangeR)) (k : Nat) :
    Option PendingChangeR :=
  match p with
  | [] => none
  | (k2, v) :: t => if k2 = k then some v else plookup t k

/-- Dict insertion `pending_changes[change_id] = ...`
(update in place, else append — Python dict order). -/
def pInsert (p : List (Nat × PendingChangeR)) (k : Nat)
    (v : PendingChangeR) : List (Nat × PendingChangeR) :=
  match p with
  | [] => [(k, v)]
  | (k2, v2) :: t => if k2 = k then (k, v) :: t else (k2, v2) :: pInsert t k v

/-- `del pending_changes[change_id]`. -/
def premove (p : List (Nat × PendingChangeR)) (k : Nat) :
    List (Nat × PendingChangeR) :=
  match p with
  | [] => []
  | (k2, v2) :: t => if k2 = k then t else (k2, v2) :: premove t k

/-- `FileManager.create_pending_change` (lines 288–329).  `.error` is the
uncaught `ValueError` of `_sanitize_path` or of `relative_to`.  On
success it returns the fresh change id and the new state. -/
def createPendingChange (st : FMState) (path : Str) (content : Option Str)
    (agent : Option Str) (action : Option Str) :
    Except Str (Nat × FMState) :=
  match sanitizePath st.workspace path with
  | Except.error e => Except.error e
  | Except.ok comps =>
    let isExisting := (fsGet comps st.files).isSome
    let acted : Str × Option Str :=
      if action = some "delete".data then
        ("delete".data, fsGet comps st.files)
      else if isExisting then
        ("edit".data, fsGet comps st.files)
      else
        ("create".data, none)
    match stripRoot st.workspace comps with
    | none =>
      Except.error (renderAbs comps ++
        " is not in the subpath of ".data ++ renderAbs st.workspace)
    | some rel =>
      let ch : PendingChangeR :=
        { path := renderRel rel, action := acted.1,
          new_content := content.getD [], old_content := acted.2,
          agent := agent }
      Except.ok (st.nextId,
        { st with pending := pInsert st.pending st.nextId ch,
                  nextId := st.nextId + 1 })

/-- The result dicts of `apply_change` / `reject_change`. -/
inductive FMResult where
  | applied (path action : Str)
  | rejected (path : Str)
  | failedNotFound
deriving DecidableEq

/-- `FileManager.apply_change` (lines 335–365).  An unknown id fails
without touching anything.  `_sanitize_path` runs *outside* the `try`, so
its `ValueError` propagates (`.error`).  With a regular-file-only disk the
`try` body always succeeds: delete unlinks if present, otherwise the new
content is written, and the change leaves the pending dict. -/
def applyChange (st : FMState) (cid : Nat) :
    Except Str (FMResult × FMState) :=
  match plookup st.pending cid with
  | none => Except.ok (FMResult.failedNotFound, st)
  | some ch =>
    match sanitizePath st.workspace ch.path with
    | Except.error e => Except.error e
    | Except.ok comps =>
      let files2 :=
        if ch.action = "delete".data then fsErase st.files comps
        else fsWrite st.files comps ch.new_content
      Except.ok (FMResult.applied ch.path ch.action,
        { st with files := files2, pending := premove st.pending cid })

/-- `FileManager.reject_change` (lines 367–378): drop the change from the
pending dict, never touching the disk. -/
def rejectChange (st : FMState) (cid : Nat) : FMResult × FMState :=
  match plookup st.pending cid with
  | none => (FMResult.failedNotFound, st)
  | some ch =>
    (FMResult.rejected ch.path, { st with pending := premove st.pending cid })

/-! ## Orchestrator turn loop (`src/backend/agents/orchestrator.py`)

`processTurn` models one iteration of `process_message_stream`'s `while`
loop, from the point where the agent's streamed response has been fully
accumulated into `full_response` (`text` below): cue extraction, mission
checklist bookkeeping, registration of file edits, the file-review pause,
the seven tool branches, handoff resolution, the `PROJECT_COMPLETE` gate
and the `DONE` logic.  The LLM stream itself, the conversation log, the
display cleaning of `_clean_message_for_display` and the UI-only events
(statuses, dev logs, stats) carry no control flow settled by the claims
and are omitted; external collaborators (disk reads via `read_file` and
`get_directory`, the web scraper, `create_subprocess_shell`) are oracle
functions, with `read_file`/`fetch_page` total (they catch internally and
return `None`) and the command runner fallible.  A `.error` result is an
uncaught Python exception escaping the turn.  POSIX is assumed
(`os.name ≠ 'nt'`), so the `python3` aliasing lines are dead and the
`RUN_TESTS` unittest heuristic always raises `NameError` (`Path` is never
imported by `orchestrator.py`), which its `try` converts. -/

/-- Decimal rendering of a `len(...)`/step number in an f-string. -/
def natToStr (n : Nat) : Str := Nat.toDigits 10 n

/-- Python `s.endswith(suf)`. -/
def hasSuffix (suf s : Str) : Bool := hasPre suf.reverse s.reverse

/-- A match of `\[(EDIT|CREATE)_FILE:([^\]]+)\]` at the head of `s`:
whether it is an EDIT, and the path group. -/
def editCueAt (s : Str) : Option (Bool × Str) :=
  if hasPre "[EDIT_FILE:".data s then
    let after := s.drop 11
    let payload := after.takeWhile (fun x => x ≠ ']')
    if payload ≠ [] ∧ hasPre [']'] (after.drop payload.length) = true then
      some (true, payload)
    else none
  else if hasPre "[CREATE_FILE:".data s then
    let after := s.drop 13
    let payload := after.takeWhile (fun x => x ≠ ']')
    if payload ≠ [] ∧ hasPre [']'] (after.drop payload.length) = true then
      some (false, payload)
    else none
  else none

/-- Length of the cue match of `editCueAt`. -/
def editCueLen (isEdit : Bool) (path : Str) : Nat :=
  (if isEdit then 11 else 13) + path.length + 1

/-- `re.finditer` over the combined `\[(EDIT|CREATE)_FILE:([^\]]+)\]`
pattern: leftmost non-overlapping matches with their start offsets. -/
def scanEditCues : Str → Nat → Nat → List (Nat × Bool × Str)
  | [], _, _ => []
  | _ :: t, i, skip + 1 => scanEditCues t (i + 1) skip
  | c :: t, i, 0 =>
    match editCueAt (c :: t) with
    | some (isEdit, path) =>
      (i, isEdit, path) :: scanEditCues t (i + 1) (editCueLen isEdit path - 1)
    | none => scanEditCues t (i + 1) 0

/-- `re.search` existence of the combined cue pattern in a slice (the
`next_cue` guard of `_extract_all_edits`). -/
def containsEditCue : Str → Bool
  | [] => false
  | c :: t => (editCueAt (c :: t)).isSome || containsEditCue t

/-- A match of the fenced-block pattern ` ```(?:\w+)?\n(.*?)\n``` `
(DOTALL) anchored at the head of `s`: the raw body group and the match
length.  The optional word group can only succeed by taking the whole
word run, since any shorter cut is followed by another word character,
never the required newline; the lazy body ends at the first later
occurrence of a newline followed by a closing fence. -/
def codeBlockAt (s : Str) : Option (Str × Nat) :=
  if hasPre "```".data s then
    let rest := s.drop 3
    let w := rest.takeWhile isWordChar
    match rest.drop w.length with
    | '\n' :: body0 =>
      match findSub? "\n```".data body0 with
      | some j => some (body0.take j, 3 + w.length + 1 + j + 4)
      | none => none
    | _ => none
  else none

/-- Leftmost code-block match from offset `i` (offsets are absolute). -/
def scanCodeBlock : Str → Nat → Option (Str × Nat × Nat)
  | [], _ => none
  | c :: t, i =>
    match codeBlockAt (c :: t) with
    | some (raw, len) => some (trimWS raw, i, i + len)
    | none => scanCodeBlock t (i + 1)

/-- `AgentOrchestrator._extract_code_block`: first code block of
`content[start_index:]`, as (stripped body, start, end). -/
def extractCodeBlock (content : Str) (startIndex : Nat) :
    Option (Str × Nat × Nat) :=
  scanCodeBlock (content.drop startIndex) startIndex

/-- One entry of `_extract_all_edits`'s result. -/
structure EditRec where
  action : Str
  path : Str
  content : Str
  cue_start : Nat
  cue_end : Nat
  block_end : Nat
deriving DecidableEq

/-- `AgentOrchestrator._extract_all_edits`: every EDIT/CREATE cue that
has a code block after it with no further cue in between. -/
def extractAllEdits (full : Str) : List EditRec :=
  (scanEditCues full 0 0).filterMap (fun m =>
    match m with
    | (i, isEdit, path) =>
      let cueEnd := i + editCueLen isEdit path
      match extractCodeBlock full cueEnd with
      | none => none
      | some (code, bs, be) =>
        if containsEditCue ((full.take bs).drop cueEnd) then none
        else some ⟨(if isEdit then "edit" else "create").data, path, code,
          i, cueEnd, be⟩)

/-- The external collaborators of the turn loop, as oracles:
`file_manager.read_file` / `get_directory` (which catch internally),
the web scraper's `search_web` / `fetch_page` / `search_and_summarize`
(internally caught, with search results as (title, snippet, url)), and
`create_subprocess_shell` (`.error` = the exception's `str(e)`). -/
structure Collab where
  readFile : Str → Option Str
  getDirectory : Str → List (Str × Nat)
  searchWeb : Str → List Str
  fetchPage : Str → Option Str
  searchSummarize : Str → List (Str × Str × Str)
  runCommand : Str → Except Str Str

/-- The orchestrator state the turn loop reads and writes.  The
conversation log is omitted: it feeds only the prompt and the UI. -/
structure OrchState where
  missionStatus : Str
  handoffQueue : List Str
  lastHandoff : Option Str
  checklist : List CLItem
  missionDescription : Str
deriving DecidableEq

/-- How a turn ends: the file-review pause (`AwaitingApproval`), another
turn with an agent and its `current_message`, or one of the three
loop-ending breaks. -/
inductive TurnOutcome where
  | pausedFileReview
  | nextTurn (agent : Str) (message : Str)
  | stoppedDone
  | stoppedComplete
  | stoppedNoHandoff
deriving DecidableEq

/-- Result of one turn. -/
structure TurnResult where
  outcome : TurnOutcome
  orch : OrchState
  fm : FMState
deriving DecidableEq

/-- The key of a handoff cue (`c in self.CUE_TO_AGENT`). -/
def handoffKey? : Cue → Option Str
  | Cue.handoff k => some k
  | _ => none

/-- Register the deletions of the `[DELETE_FILE:...]` scan, in order. -/
def registerDeletes (agent : Str) (fm : FMState) :
    List (Nat × Str) → Except Str FMState
  | [] => Except.ok fm
  | (_, p) :: ds =>
    match createPendingChange fm p none (some agent) (some "delete".data) with
    | Except.error e => Except.error e
    | Except.ok r => registerDeletes agent r.2 ds

/-- Register the edit/create changes, then the deletions (the two `for`
loops over `create_pending_change`). -/
def registerEdits (agent : Str) (fm : FMState) (edits : List EditRec)
    (deletes : List (Nat × Str)) : Except Str FMState :=
  match edits with
  | [] => registerDeletes agent fm deletes
  | e :: es =>
    match createPendingChange fm e.path (some e.content) (some agent)
        (some e.action) with
    | Except.error e2 => Except.error e2
    | Except.ok r => registerEdits agent r.2 es deletes

/-- First `READ:` cue payload. -/
def firstRead? (cues : List Cue) : Option Str :=
  cues.findSome? (fun c => match c with
    | Cue.read p => some p
    | _ => none)

/-- First `FILE_SEARCH:` cue payload. -/
def firstFileSearch? (cues : List Cue) : Option Str :=
  cues.findSome? (fun c => match c with
    | Cue.fileSearch p => some p
    | _ => none)

/-- All `SUB_RESEARCH:` cue payloads, in order. -/
def subResearchQueries (cues : List Cue) : List Str :=
  cues.filterMap (fun c => match c with
    | Cue.subResearch q => some q
    | _ => none)

/-- First `READ_URL:` cue payload. -/
def firstReadUrl? (cues : List Cue) : Option Str :=
  cues.findSome? (fun c => match c with
    | Cue.readUrl u => some u
    | _ => none)

/-- First `SEARCH:` cue payload. -/
def firstSearch? (cues : List Cue) : Option Str :=
  cues.findSome? (fun c => match c with
    | Cue.search q => some q
    | _ => none)

/-- First `RUN_COMMAND:` cue payload. -/
def firstRunCommand? (cues : List Cue) : Option Str :=
  cues.findSome? (fun c => match c with
    | Cue.runCommand cmd => some cmd
    | _ => none)

/-- First `RUN_TESTS:` cue payload. -/
def firstRunTests? (cues : List Cue) : Option Str :=
  cues.findSome? (fun c => match c with
    | Cue.runTests cmd => some cmd
    | _ => none)

/-- The `current_message` the READ branch builds. -/
def readMsg (co : Collab) (p : Str) : Str :=
  match co.readFile p with
  | none =>
    "I tried to read '".data ++ p ++
      ("' but it doesn't exist or is empty." ++
        " Please verify the file path.").data
  | some c =>
    "Content of '".data ++ p ++ "':\n\n```\n".data ++ c ++
      ("\n```\n\nI have read the file." ++
        " Please continue with your analysis.").data

/-- The `current_message` the FILE_SEARCH branch builds. -/
def fileSearchMsg (co : Collab) (pat : Str) : Str :=
  let files := co.getDirectory pat
  let fileListStr := List.intercalate "\n".data
    (files.map (fun f => "- ".data ++ f.1 ++ " (".data ++ natToStr f.2 ++
      " bytes)".data))
  if files = [] then
    "I searched for files matching '".data ++ pat ++
      "' but found no results.".data
  else
    "Found ".data ++ natToStr files.length ++ " files matching '".data ++
      pat ++ "':\n\n".data ++ fileListStr ++
      ("\n\nYou can ask the user to provide the content of any of these" ++
        " if you need to analyze them deeply.").data

/-- The `current_message` the SUB_RESEARCH branch builds for the
Summarizer; a source counts when its url passes the `startswith("http")`
check and `fetch_page` extracts content. -/
def subResearchMsg (co : Collab) (qs : List Str) : Str :=
  let nFiles := ((qs.map (fun q => (co.searchWeb q).filter (fun u =>
    hasPre "http".data u && (co.fetchPage u).isSome))).join).length
  "I have gathered extensive research from ".data ++ natToStr qs.length ++
    " sub-topics. The raw content from ".data ++ natToStr nFiles ++
    (" sources is attached as files.\n\nTask: Synthesize everything" ++
      " into a final 🏆 Executive Deep Research Report.").data

/-- The `current_message` the READ_URL branch builds (an empty extraction
is falsy and reports failure). -/
def readUrlMsg (co : Collab) (u : Str) : Str :=
  let c := (co.fetchPage u).getD []
  if c ≠ [] then
    "Extracted content from ".data ++ u ++ ":\n\n".data ++ c ++
      "\n\nPlease summarize this content for the research report.".data
  else
    "I tried to read ".data ++ u ++
      (" but couldn't extract any content. The site might be blocking" ++
        " automated access or is currently down.").data

/-- The `current_message` the SEARCH branch builds from the first five
search results. -/
def searchMsg (co : Collab) (q : Str) : Str :=
  let findings := List.intercalate "\n".data
    (((co.searchSummarize q).take 5).map (fun r =>
      "- ".data ++ r.1 ++ ": ".data ++ r.2.1 ++ " (".data ++ r.2.2 ++
        ")".data))
  "Web search results for '".data ++ q ++ "':\n\n".data ++ findings ++
    "\n\nPlease summarize these findings for the user.".data

/-- The `current_message` the RUN_COMMAND branch builds. -/
def runCmdMsg (co : Collab) (cmd : Str) : Str :=
  match co.runCommand cmd with
  | Except.ok out =>
    "Command `".data ++ cmd ++ "` executed.\n\nOutput:\n```\n".data ++
      out ++ "\n```\n\nPlease analyze the results and proceed.".data
  | Except.error e =>
    "Failed to execute `".data ++ cmd ++ "`. Error: ".data ++ e

/-- The `current_message` the RUN_TESTS branch builds.  When the command
mentions `-m unittest` and ends in `.py`, the auto-correction heuristic
evaluates `Path`, a name `orchestrator.py` never imports: the `NameError`
is caught by the branch's `try` and reported as a failure. -/
def runTestsMsg (co : Collab) (cmd : Str) : Str :=
  if containsSub "-m unittest".data cmd && hasSuffix ".py".data cmd then
    "Failed to execute `".data ++ cmd ++
      ("`. Error: name 'Path' is not defined").data
  else
    match co.runCommand cmd with
    | Except.ok out =>
      "Command `".data ++ cmd ++ "` executed.\n\nOutput:\n```\n".data ++
        out ++ ("\n```\n\nPlease analyze the results. If failed, hand" ++
          " off to Junior Dev for fixes.").data
    | Except.error e =>
      "Failed to execute `".data ++ cmd ++ "`. Error: ".data ++ e

/-- The seven tool branches in code order — READ, FILE_SEARCH,
SUB_RESEARCH, READ_URL, SEARCH, RUN_COMMAND, RUN_TESTS — returning the
next agent and `current_message` of the first branch taken, if any.
Every branch keeps the current agent except SUB_RESEARCH, which directs
the report to the Summarizer. -/
def serviceTool? (co : Collab) (agent : Str) (cues : List Cue) :
    Option (Str × Str) :=
  match firstRead? cues with
  | some p => some (agent, readMsg co p)
  | none =>
  match firstFileSearch? cues with
  | some pat => some (agent, fileSearchMsg co pat)
  | none =>
  match subResearchQueries cues with
  | q :: qs => some ("Summarizer".data, subResearchMsg co (q :: qs))
  | [] =>
  match firstReadUrl? cues with
  | some u => some (agent, readUrlMsg co u)
  | none =>
  match firstSearch? cues with
  | some q => some (agent, searchMsg co q)
  | none =>
  match firstRunCommand? cues with
  | some cmd => some (agent, runCmdMsg co cmd)
  | none =>
  match firstRunTests? cues with
  | some cmd => some (agent, runTestsMsg co cmd)
  | none => none

/-- The corrective message of the blocked `PROJECT_COMPLETE` branch,
listing the incomplete steps. -/
def pcBlockedMsg (cl : List CLItem) : Str :=
  ("⚠️ Cannot mark project complete yet." ++
    " The following checklist items are not done:\n").data ++
  ((cl.filter (fun it => it.done = false)).map (fun it =>
    "- [ ] ".data ++ natToStr it.step ++ ". ".data ++ it.description ++
      " (→".data ++ it.agent ++ ")\n".data)).join ++
  "\nPlease complete these remaining steps first.".data

/-- The `current_message` handed to the next agent on a handoff. -/
def handoffMsg (agent text : Str) : Str :=
  "Previous agent (".data ++ agent ++ ") said:\n\n".data ++ text ++
    "\n\nPlease continue with your expertise.".data

/-- The tail of the turn once no tool fired: `PROJECT_COMPLETE` gate,
`DONE` logic, then handoff execution or stop.  `handoffAgent` is the
already-resolved explicit handoff target (if any). -/
def afterHandoff (agent text : Str) (cues : List Cue)
    (handoffAgent : Option Str) (st : OrchState) (fm : FMState) :
    TurnResult :=
  if Cue.projectComplete ∈ cues then
    if isChecklistComplete st.checklist = false then
      ⟨TurnOutcome.nextTurn agent (pcBlockedMsg st.checklist), st, fm⟩
    else
      ⟨TurnOutcome.stoppedComplete,
        { st with
            handoffQueue := [], missionStatus := "IDLE".data,
            checklist := [], missionDescription := [] }, fm⟩
  else if Cue.done ∈ cues then
    match handoffAgent with
    | some a => ⟨TurnOutcome.nextTurn a (handoffMsg agent text), st, fm⟩
    | none =>
      match st.handoffQueue with
      | a :: rest =>
        ⟨TurnOutcome.nextTurn a (handoffMsg agent text),
          { st with handoffQueue := rest }, fm⟩
      | [] => ⟨TurnOutcome.stoppedDone, st, fm⟩
  else
    match handoffAgent with
    | some a => ⟨TurnOutcome.nextTurn a (handoffMsg agent text), st, fm⟩
    | none => ⟨TurnOutcome.stoppedNoHandoff, st, fm⟩

/-- Handoff resolution over the already-computed handoff-cue keys: the
first key's target hands off if it differs from the current agent (the
remaining targets are queued unless already queued or the current
agent); a self-handoff `continue`s with the `current_message` unchanged,
skipping the `PROJECT_COMPLETE` and `DONE` checks. -/
def finishTurnGo (agent curMsg text : Str) (cues : List Cue) :
    List Str → OrchState → FMState → TurnResult
  | [], st, fm => afterHandoff agent text cues none st fm
  | firstK :: extras, st, fm =>
    let target := cueToAgent firstK
    if target ≠ agent then
      let q2 := extras.foldl (fun q ek =>
        let ea := cueToAgent ek
        if ea ∉ q ∧ ea ≠ agent then q ++ [ea] else q) st.handoffQueue
      afterHandoff agent text cues (some target)
        { st with handoffQueue := q2 } fm
    else
      ⟨TurnOutcome.nextTurn agent curMsg, st, fm⟩

/-- Handoff resolution of the turn (`cues_for_handoff` onwards). -/
def finishTurn (agent curMsg text : Str) (cues : List Cue)
    (st : OrchState) (fm : FMState) : TurnResult :=
  finishTurnGo agent curMsg text cues (cues.filterMap handoffKey?) st fm

/-- The turn past the registration of file changes: the file-review
pause with the resume target stashed, else the first tool branch, else
handoffs / completion / DONE. -/
def turnTail (co : Collab) (agent curMsg text : Str) (cues : List Cue)
    (edits : List EditRec) (deletes : List (Nat × Str)) (st1 : OrchState)
    (fm2 : FMState) : TurnResult :=
  if edits ≠ [] ∨ deletes ≠ [] then
    let handoffAgent :=
      match cues.filterMap handoffKey? with
      | k :: _ => some (cueToAgent k)
      | [] => st1.handoffQueue.head?
    ⟨TurnOutcome.pausedFileReview,
      { st1 with lastHandoff := handoffAgent }, fm2⟩
  else
    match serviceTool? co agent cues with
    | some r => ⟨TurnOutcome.nextTurn r.1 r.2, st1, fm2⟩
    | none => finishTurn agent curMsg text cues st1 fm2

/-- One iteration of `process_message_stream`'s `while` loop over the
accumulated response `text`: extract cues, apply checklist blocks and
updates, register file changes (a failing registration is an uncaught
exception), then the tail above. -/
def processTurn (co : Collab) (agent curMsg text : Str) (st : OrchState)
    (fm : FMState) : Except Str TurnResult :=
  let cues := extract_cues text
  let mc := extractMissionChecklist text st.checklist st.missionDescription
  let upd := extractChecklistUpdates text mc.2.1
  let st1 : OrchState :=
    { st with checklist := upd.1, missionDescription := mc.2.2 }
  let edits := extractAllEdits text
  let deletes := scanTagged "[DELETE_FILE:".data text 0 0
  Except.map (turnTail co agent curMsg text cues edits deletes st1)
    (registerEdits agent fm edits deletes)

/-- `AgentOrchestrator.handle_approval_signal` (lines 1285–1348) over the
state it reads: the last conversation message (agent, content), the
stashed handoff, the queue and the checklist.  Returns the
(next_agent, message) pair and the updated state.  An empty feedback
string is falsy in Python and uses the default rejection wording. -/
def handleApprovalSignal (st : OrchState) (lastMsg : Option (Str × Str))
    (approved : Bool) (feedback : Option Str) :
    (Option Str × Option Str) × OrchState :=
  let lastAgentName := match lastMsg with
    | some m => m.1
    | none => "Senior Dev".data
  let wasDone := match lastMsg with
    | some m => containsSub "[DONE]".data m.2
    | none => false
  if approved then
    let isProjectComplete := match lastMsg with
      | some m => containsSub "[PROJECT_COMPLETE]".data m.2
      | none => false
    if isProjectComplete then
      ((none, none),
        { st with missionStatus := "IDLE".data, lastHandoff := none })
    else
      match st.lastHandoff with
      | some lh =>
        ((some lh, some ("The user has approved the file changes from ".data
            ++ lastAgentName ++
            (". You've been called in to help with the next step.").data)),
          { st with lastHandoff := none })
      | none =>
        match st.handoffQueue with
        | q0 :: qrest =>
          ((some q0, some ("User approved previous changes." ++
              " Now it's your turn in the mission queue.").data),
            { st with handoffQueue := qrest, lastHandoff := none })
        | [] =>
          if wasDone then
            if st.checklist ≠ [] ∧ isChecklistComplete st.checklist = false
            then
              ((some "Senior Dev".data,
                some ("The user approved the previous step. The mission" ++
                  " checklist is still in progress. Please review the" ++
                  " status and trigger the next action.").data),
                { st with lastHandoff := none })
            else
              ((none, none),
                { st with missionStatus := "IDLE".data, lastHandoff := none })
          else
            ((some lastAgentName,
              some "Great! Changes approved. What's next?".data),
              { st with lastHandoff := none })
  else
    let fb := feedback.getD []
    ((some lastAgentName,
      some ("User rejected the changes".data ++
        (if fb ≠ [] then " with feedback: ".data ++ fb
         else ". Please try a different approach.".data))),
      { st with lastHandoff := none })

/-- A collaborator whose disk and web are empty and whose command runner
reports nothing, for concrete evaluations. -/
def trivialCollab : Collab :=
  { readFile := fun _ => none,
    getDirectory := fun _ => [],
    searchWeb := fun _ => [],
    fetchPage := fun _ => none,
    searchSummarize := fun _ => [],
    runCommand := fun _ => Except.ok [] }

theorem plookup_eq_none {p : List (Nat × PendingChangeR)} {k : Nat}
    (h : k ∉ p.map Prod.fst) : plookup p k = none := by
  induction p with
  | nil => rfl
  | cons e t ih =>
    obtain ⟨k2, v⟩ := e
    simp only [List.map_cons, List.mem_cons] at h
    push_neg at h
    simp only [plookup, if_neg (fun hh : k2 = k => h.1 hh.symm)]
    exact ih h.2

theorem plookup_premove_self {p : List (Nat × PendingChangeR)} {k : Nat}
    (hnd : (p.map Prod.fst).Nodup) :
    plookup (premove p k) k = none := by
  induction p with
  | nil => rfl
  | cons e t ih =>
    obtain ⟨k2, v⟩ := e
    simp only [List.map_cons, List.nodup_cons] at hnd
    simp only [premove]
    by_cases hk : k2 = k
    · rw [if_pos hk]
      subst hk
      exact plookup_eq_none hnd.1
    · rw [if_neg hk]
      simp only [plookup, if_neg hk]
      exact ih hnd.2

theorem plookup_pInsert_self (p : List (Nat × PendingChangeR)) (k : Nat)
    (v : PendingChangeR) : plookup (pInsert p k v) k = some v := by
  induction p with
  | nil => simp [pInsert, plookup]
  | cons e t ih =>
    obtain ⟨k2, v2⟩ := e
    simp only [pInsert]
    by_cases hk : k2 = k
    · rw [if_pos hk]
      simp [plookup]
    · rw [if_neg hk]
      simp only [plookup, if_neg hk]
      exact ih

/-- **C7**: a pending change whose stored path re-sanitizes (always the
case while the workspace is unchanged) has exactly one outcome.
`apply_change` performs the disk effect — unlink for a delete, otherwise
a write of `new_content` — and removes the change from the pending dict;
`reject_change` removes it with the disk untouched; and once the id has
left the pending dict, any further `apply_change` or `reject_change`
returns the failed/not-found result and changes nothing, so no change is
applied twice.  The pending dict's keys are assumed distinct, a dict
invariant. -/
theorem c7_pending_change_once (st : FMState) (cid : Nat)
    (ch : PendingChangeR) (comps : List Str)
    (hnd : (st.pending.map Prod.fst).Nodup)
    (hch : plookup st.pending cid = some ch)
    (hsan : sanitizePath st.workspace ch.path = Except.ok comps) :
    (∃ st2 : FMState,
      applyChange st cid =
          Except.ok (FMResult.applied ch.path ch.action, st2) ∧
        st2.files = (if ch.action = "delete".data then fsErase st.files comps
          else fsWrite st.files comps ch.new_content) ∧
        st2.pending = premove st.pending cid ∧
        plookup st2.pending cid = none) ∧
    (∃ st3 : FMState,
      rejectChange st cid = (FMResult.rejected ch.path, st3) ∧
        st3.files = st.files ∧
        st3.pending = premove st.pending cid ∧
        plookup st3.pending cid = none) ∧
    (∀ st4 : FMState, plookup st4.pending cid = none →
      applyChange st4 cid = Except.ok (FMResult.failedNotFound, st4) ∧
        rejectChange st4 cid = (FMResult.failedNotFound, st4)) := by
  refine ⟨⟨{ st with
      files := if ch.action = "delete".data then fsErase st.files comps
        else fsWrite st.files comps ch.new_content,
      pending := premove st.pending cid }, ?_, rfl, rfl,
      plookup_premove_self hnd⟩,
    ⟨{ st with pending := premove st.pending cid }, ?_, rfl, rfl,
      plookup_premove_self hnd⟩, ?_⟩
  · simp only [applyChange, hch, hsan]
  · simp only [rejectChange, hch]
  · intro st4 h4
    exact ⟨by simp only [applyChange, h4], by simp only [rejectChange, h4]⟩

theorem c7_pending_change_once_witness :
    ((([(0, (⟨"a.py".data, "edit".data, "new".data, some "old".data,
          none⟩ : PendingChangeR))].map Prod.fst)).Nodup ∧
      plookup [(0, (⟨"a.py".data, "edit".data, "new".data, some "old".data,
          none⟩ : PendingChangeR))] 0 =
        some ⟨"a.py".data, "edit".data, "new".data, some "old".data, none⟩ ∧
      sanitizePath ["ws".data] "a.py".data =
        Except.ok ["ws".data, "a.py".data]) ∧
    ((∃ st2 : FMState,
      applyChange ⟨["ws".data], [(["ws".data, "a.py".data], "old".data)],
          [(0, ⟨"a.py".data, "edit".data, "new".data, some "old".data,
            none⟩)], 1⟩ 0 =
          Except.ok (FMResult.applied "a.py".data "edit".data, st2) ∧
        st2.files = (if ("edit".data : Str) = "delete".data then
          fsErase [(["ws".data, "a.py".data], "old".data)]
            ["ws".data, "a.py".data]
          else fsWrite [(["ws".data, "a.py".data], "old".data)]
            ["ws".data, "a.py".data] "new".data) ∧
        st2.pending = premove [(0, ⟨"a.py".data, "edit".data, "new".data,
          some "old".data, none⟩)] 0 ∧
        plookup st2.pending 0 = none) ∧
    (∃ st3 : FMState,
      rejectChange ⟨["ws".data], [(["ws".data, "a.py".data], "old".data)],
          [(0, ⟨"a.py".data, "edit".data, "new".data, some "old".data,
            none⟩)], 1⟩ 0 = (FMResult.rejected "a.py".data, st3) ∧
        st3.files = [(["ws".data, "a.py".data], "old".data)] ∧
        st3.pending = premove [(0, ⟨"a.py".data, "edit".data, "new".data,
          some "old".data, none⟩)] 0 ∧
        plookup st3.pending 0 = none) ∧
    (∀ st4 : FMState, plookup st4.pending 0 = none →
      applyChange st4 0 = Except.ok (FMResult.failedNotFound, st4) ∧
        rejectChange st4 0 = (FMResult.failedNotFound, st4))) :=
  ⟨⟨by decide, by decide, by decide⟩,
    c7_pending_change_once
      ⟨["ws".data], [(["ws".data, "a.py".data], "old".data)],
        [(0, ⟨"a.py".data, "edit".data, "new".data, some "old".data,
          none⟩)], 1⟩ 0
      ⟨"a.py".data, "edit".data, "new".data, some "old".data, none⟩
      ["ws".data, "a.py".data] (by decide) (by decide) (by decide)⟩

/-- **C10**: the recorded action of a successful `create_pending_change`
is decided by the disk, not the caller.  For a non-delete request the
change is stored as `"edit"` with `old_content` the file's current
content when the sanitized target exists, and as `"create"` with
`old_content = none` when it does not — whatever action was requested —
while a delete request is stored as `"delete"` with `old_content` equal
to the file's content if present and `none` otherwise. -/
theorem c10_disk_determined_action (st : FMState) (path : Str)
    (content : Option Str) (agent : Option Str) (req : Option Str)
    (cid : Nat) (st2 : FMState) (comps : List Str)
    (hsan : sanitizePath st.workspace path = Except.ok comps)
    (h : createPendingChange st path content agent req =
      Except.ok (cid, st2)) :
    ∃ ch : PendingChangeR, plookup st2.pending cid = some ch ∧
      ch.new_content = content.getD [] ∧
      (req ≠ some "delete".data →
        (∀ old, fsGet comps st.files = some old →
          ch.action = "edit".data ∧ ch.old_content = some old) ∧
        (fsGet comps st.files = none →
          ch.action = "create".data ∧ ch.old_content = none)) ∧
      (req = some "delete".data →
        ch.action = "delete".data ∧ ch.old_content = fsGet comps st.files) := by
  simp only [createPendingChange, hsan] at h
  cases hsr : stripRoot st.workspace comps with
  | none =>
    rw [hsr] at h
    cases h
  | some rel =>
    rw [hsr] at h
    simp only [Except.ok.injEq, Prod.mk.injEq] at h
    obtain ⟨hcid, hst2⟩ := h
    subst hcid
    subst hst2
    refine ⟨_, plookup_pInsert_self _ _ _, rfl, ?_, ?_⟩
    · intro hreq
      constructor
      · intro old hold
        simp only [if_neg hreq, hold, Option.isSome_some, if_true]
        exact ⟨trivial, trivial⟩
      · intro hnone
        simp only [if_neg hreq, hnone, Option.isSome_none,
          Bool.false_eq_true, if_false]
        exact ⟨trivial, trivial⟩
    · intro hreq
      simp only [if_pos hreq]
      exact ⟨trivial, trivial⟩

/-- `uuid.uuid4()` freshness, as the counter invariant: every pending id
was issued before the next one. -/
def FreshIds (fm : FMState) : Prop :=
  ∀ k ∈ fm.pending.map Prod.fst, k < fm.nextId

instance (fm : FMState) : Decidable (FreshIds fm) :=
  inferInstanceAs (Decidable (∀ k ∈ fm.pending.map Prod.fst, k < fm.nextId))

theorem pInsert_eq_append {p : List (Nat × PendingChangeR)} {k : Nat}
    {v : PendingChangeR} (h : k ∉ p.map Prod.fst) :
    pInsert p k v = p ++ [(k, v)] := by
  induction p with
  | nil => rfl
  | cons e t ih =>
    obtain ⟨k2, v2⟩ := e
    simp only [List.map_cons, List.mem_cons] at h
    push_neg at h
    simp only [pInsert, if_neg (fun hh : k2 = k => h.1 hh.symm),
      List.cons_append, List.cons.injEq, true_and]
    exact ih h.2

theorem createPendingChange_ok_shape {st : FMState} {path : Str}
    {content : Option Str} {agent : Option Str} {action : Option Str}
    {cid : Nat} {st2 : FMState}
    (h : createPendingChange st path content agent action =
      Except.ok (cid, st2)) :
    cid = st.nextId ∧ st2.nextId = st.nextId + 1 ∧
      st2.workspace = st.workspace ∧ st2.files = st.files ∧
      ∃ ch, st2.pending = pInsert st.pending st.nextId ch := by
  simp only [createPendingChange] at h
  cases hs : sanitizePath st.workspace path with
  | error e => rw [hs] at h; cases h
  | ok comps =>
    rw [hs] at h
    cases hsr : stripRoot st.workspace comps with
    | none =>
      simp only [hsr] at h
      cases h
    | some rel =>
      simp only [hsr, Except.ok.injEq, Prod.mk.injEq] at h
      obtain ⟨hcid, hst2⟩ := h
      subst hcid
      subst hst2
      exact ⟨rfl, rfl, rfl, rfl, _, rfl⟩

theorem createPendingChange_fresh {st : FMState} {path : Str}
    {content : Option Str} {agent : Option Str} {action : Option Str}
    {cid : Nat} {st2 : FMState}
    (h : createPendingChange st path content agent action =
      Except.ok (cid, st2)) (hf : FreshIds st) :
    st2.pending.length = st.pending.length + 1 ∧ FreshIds st2 ∧
      st2.workspace = st.workspace ∧ st2.files = st.files := by
  obtain ⟨hcid, hnext, hws, hfiles, ch, hpend⟩ :=
    createPendingChange_ok_shape h
  have hnotmem : st.nextId ∉ st.pending.map Prod.fst := by
    intro hm
    exact absurd (hf _ hm) (by omega)
  rw [pInsert_eq_append hnotmem] at hpend
  refine ⟨by rw [hpend]; simp, ?_, hws, hfiles⟩
  intro k hk
  rw [hpend, hnext] at *
  simp only [List.map_append, List.mem_append, List.map_cons,
    List.map_nil, List.mem_singleton] at hk
  rcases hk with hk | hk
  · have := hf k hk
    omega
  · omega

theorem registerDeletes_fresh (agent : Str) (ds : List (Nat × Str)) :
    ∀ fm fm2 : FMState, FreshIds fm →
      registerDeletes agent fm ds = Except.ok fm2 →
      fm2.pending.length = fm.pending.length + ds.length ∧
        FreshIds fm2 ∧ fm2.files = fm.files := by
  induction ds with
  | nil =>
    intro fm fm2 hf h
    simp only [registerDeletes, Except.ok.injEq] at h
    subst h
    exact ⟨rfl, hf, rfl⟩
  | cons d ds ih =>
    intro fm fm2 hf h
    obtain ⟨_, p⟩ := d
    simp only [registerDeletes] at h
    cases hc : createPendingChange fm p none (some agent)
        (some "delete".data) with
    | error e => rw [hc] at h; cases h
    | ok r =>
      rw [hc] at h
      obtain ⟨hlen, hf2, _, hfiles⟩ := createPendingChange_fresh hc hf
      obtain ⟨hlen2, hf3, hfiles2⟩ := ih r.2 fm2 hf2 h
      refine ⟨?_, hf3, hfiles2.trans hfiles⟩
      rw [hlen2, hlen]
      simp only [List.length_cons]
      omega

theorem registerEdits_fresh (agent : Str) (es : List EditRec)
    (ds : List (Nat × Str)) :
    ∀ fm fm2 : FMState, FreshIds fm →
      registerEdits agent fm es ds = Except.ok fm2 →
      fm2.pending.length = fm.pending.length + es.length + ds.length ∧
        FreshIds fm2 ∧ fm2.files = fm.files := by
  induction es with
  | nil =>
    intro fm fm2 hf h
    simp only [registerEdits] at h
    obtain ⟨hlen, hf2, hfiles⟩ := registerDeletes_fresh agent ds fm fm2 hf h
    exact ⟨by simpa using hlen, hf2, hfiles⟩
  | cons e es ih =>
    intro fm fm2 hf h
    simp only [registerEdits] at h
    cases hc : createPendingChange fm e.path (some e.content) (some agent)
        (some e.action) with
    | error e2 => rw [hc] at h; cases h
    | ok r =>
      rw [hc] at h
      obtain ⟨hlen, hf2, _, hfiles⟩ := createPendingChange_fresh hc hf
      obtain ⟨hlen2, hf3, hfiles2⟩ := ih r.2 fm2 hf2 h
      refine ⟨?_, hf3, hfiles2.trans hfiles⟩
      rw [hlen2, hlen]
      simp only [List.length_cons]
      omega

theorem c10_disk_determined_action_witness :
    (sanitizePath ["ws".data] "a.py".data =
        Except.ok ["ws".data, "a.py".data] ∧
      createPendingChange
          ⟨["ws".data], [(["ws".data, "a.py".data], "old".data)], [], 5⟩
          "a.py".data (some "print()".data) none (some "create".data) =
        Except.ok (5,
          ⟨["ws".data], [(["ws".data, "a.py".data], "old".data)],
            [(5, ⟨"a.py".data, "edit".data, "print()".data,
              some "old".data, none⟩)], 6⟩)) ∧
    (∃ ch : PendingChangeR,
      plookup (FMState.pending
          ⟨["ws".data], [(["ws".data, "a.py".data], "old".data)],
            [(5, ⟨"a.py".data, "edit".data, "print()".data,
              some "old".data, none⟩)], 6⟩) 5 = some ch ∧
      ch.new_content = (some "print()".data).getD [] ∧
      ((some "create".data : Option Str) ≠ some "delete".data →
        (∀ old, fsGet ["ws".data, "a.py".data]
            [(["ws".data, "a.py".data], "old".data)] = some old →
          ch.action = "edit".data ∧ ch.old_content = some old) ∧
        (fsGet ["ws".data, "a.py".data]
            [(["ws".data, "a.py".data], "old".data)] = none →
          ch.action = "create".data ∧ ch.old_content = none)) ∧
      ((some "create".data : Option Str) = some "delete".data →
        ch.action = "delete".data ∧
          ch.old_content = fsGet ["ws".data, "a.py".data]
            [(["ws".data, "a.py".data], "old".data)])) :=
  ⟨⟨by decide, by decide⟩,
    c10_disk_determined_action
      ⟨["ws".data], [(["ws".data, "a.py".data], "old".data)], [], 5⟩
      "a.py".data (some "print()".data) none (some "create".data) 5
      ⟨["ws".data], [(["ws".data, "a.py".data], "old".data)],
        [(5, ⟨"a.py".data, "edit".data, "print()".data,
          some "old".data, none⟩)], 6⟩
      ["ws".data, "a.py".data] (by decide) (by decide)⟩

theorem registerEdits_nil (agent : Str) (fm : FMState) :
    registerEdits agent fm [] [] = Except.ok fm := rfl

theorem exceptMap_ok {α β ε : Type} (f : α → β) (a : α) :
    Except.map f (Except.ok a : Except ε α) = Except.ok (f a) := rfl

theorem processTurn_eq (co : Collab) (agent curMsg text : Str)
    (st : OrchState) (fm : FMState) :
    processTurn co agent curMsg text st fm =
      Except.map (turnTail co agent curMsg text (extract_cues text)
        (extractAllEdits text) (scanTagged "[DELETE_FILE:".data text 0 0)
        { st with
            checklist := (extractChecklistUpdates text
              (extractMissionChecklist text st.checklist
                st.missionDescription).2.1).1,
            missionDescription := (extractMissionChecklist text
              st.checklist st.missionDescription).2.2 })
        (registerEdits agent fm (extractAllEdits text)
          (scanTagged "[DELETE_FILE:".data text 0 0)) := rfl

theorem turnTail_pause (co : Collab) (agent curMsg text : Str)
    (cues : List Cue) (edits : List EditRec) (deletes : List (Nat × Str))
    (st1 : OrchState) (fm2 : FMState)
    (h : edits ≠ [] ∨ deletes ≠ []) :
    turnTail co agent curMsg text cues edits deletes st1 fm2 =
      ⟨TurnOutcome.pausedFileReview,
        { st1 with lastHandoff :=
            match cues.filterMap handoffKey? with
            | k :: _ => some (cueToAgent k)
            | [] => st1.handoffQueue.head? }, fm2⟩ := by
  unfold turnTail
  rw [if_pos h]

theorem turnTail_service (co : Collab) (agent curMsg text : Str)
    (cues : List Cue) (st1 : OrchState) (fm2 : FMState) {na msg : Str}
    (hsv : serviceTool? co agent cues = some (na, msg)) :
    turnTail co agent curMsg text cues [] [] st1 fm2 =
      ⟨TurnOutcome.nextTurn na msg, st1, fm2⟩ := by
  have hc : ¬(([] : List EditRec) ≠ [] ∨ ([] : List (Nat × Str)) ≠ []) :=
    by simp
  unfold turnTail
  rw [if_neg hc, hsv]

theorem turnTail_finish (co : Collab) (agent curMsg text : Str)
    (cues : List Cue) (st1 : OrchState) (fm2 : FMState)
    (hsv : serviceTool? co agent cues = none) :
    turnTail co agent curMsg text cues [] [] st1 fm2 =
      finishTurn agent curMsg text cues st1 fm2 := by
  have hc : ¬(([] : List EditRec) ≠ [] ∨ ([] : List (Nat × Str)) ≠ []) :=
    by simp
  unfold turnTail
  rw [if_neg hc, hsv]

/-- When no file change was proposed and a tool branch fires, the turn
delivers the branch's agent and message with the filesystem untouched and
no queue, stash or status change. -/
theorem processTurn_service (co : Collab) (agent curMsg text : Str)
    (st : OrchState) (fm : FMState) {na msg : Str}
    (hnoe : extractAllEdits text = [])
    (hnod : scanTagged "[DELETE_FILE:".data text 0 0 = [])
    (hsv : serviceTool? co agent (extract_cues text) = some (na, msg)) :
    ∃ r, processTurn co agent curMsg text st fm = Except.ok r ∧
      r.outcome = TurnOutcome.nextTurn na msg ∧ r.fm = fm ∧
      r.orch.handoffQueue = st.handoffQueue ∧
      r.orch.lastHandoff = st.lastHandoff ∧
      r.orch.missionStatus = st.missionStatus := by
  refine ⟨⟨TurnOutcome.nextTurn na msg,
    { st with
        checklist := (extractChecklistUpdates text
          (extractMissionChecklist text st.checklist
            st.missionDescription).2.1).1,
        missionDescription := (extractMissionChecklist text st.checklist
          st.missionDescription).2.2 }, fm⟩, ?_, rfl, rfl, rfl, rfl, rfl⟩
  rw [processTurn_eq, hnoe, hnod, registerEdits_nil, exceptMap_ok,
    turnTail_service co agent curMsg text _ _ _ hsv]

theorem exceptMap_error {α β ε : Type} (f : α → β) (e : ε) :
    Except.map f (Except.error e : Except ε α) = Except.error e := rfl

theorem finishTurn_nil (agent curMsg text : Str) (cues : List Cue)
    (st : OrchState) (fm : FMState)
    (h : cues.filterMap handoffKey? = []) :
    finishTurn agent curMsg text cues st fm =
      afterHandoff agent text cues none st fm := by
  unfold finishTurn
  rw [h]
  rfl

theorem finishTurn_cons (agent curMsg text : Str) (cues : List Cue)
    (st : OrchState) (fm : FMState) {k : Str} {extras : List Str}
    (h : cues.filterMap handoffKey? = k :: extras)
    (hne : cueToAgent k ≠ agent) :
    finishTurn agent curMsg text cues st fm =
      afterHandoff agent text cues (some (cueToAgent k))
        { st with
            handoffQueue := extras.foldl (fun q ek =>
              let ea := cueToAgent ek
              if ea ∉ q ∧ ea ≠ agent then q ++ [ea] else q)
              st.handoffQueue } fm := by
  unfold finishTurn
  rw [h]
  simp only [finishTurnGo]
  rw [if_pos hne]

theorem finishTurn_self (agent curMsg text : Str) (cues : List Cue)
    (st : OrchState) (fm : FMState) {k : Str} {extras : List Str}
    (h : cues.filterMap handoffKey? = k :: extras)
    (he : cueToAgent k = agent) :
    finishTurn agent curMsg text cues st fm =
      ⟨TurnOutcome.nextTurn agent curMsg, st, fm⟩ := by
  unfold finishTurn
  rw [h]
  simp only [finishTurnGo]
  rw [if_neg (fun hx => hx he)]

theorem afterHandoff_pc_blocked (agent text : Str) (cues : List Cue)
    (ha : Option Str) (st : OrchState) (fm : FMState)
    (hpc : Cue.projectComplete ∈ cues)
    (hinc : isChecklistComplete st.checklist = false) :
    afterHandoff agent text cues ha st fm =
      ⟨TurnOutcome.nextTurn agent (pcBlockedMsg st.checklist), st, fm⟩ := by
  unfold afterHandoff
  rw [if_pos hpc, if_pos hinc]

/-- `target != current` guard of the handoff resolution, as a decidable
side condition. -/
def noSelfHandoff (agent : Str) (cues : List Cue) : Bool :=
  match cues.filterMap handoffKey? with
  | [] => true
  | k :: _ => decide (cueToAgent k ≠ agent)

/-- The serviced-tool outcome a turn can deliver: the named agent and
message come back as the next turn with the filesystem untouched and no
queue, stash or status change. -/
def ServedWith (co : Collab) (agent curMsg text : Str) (st : OrchState)
    (fm : FMState) (na msg : Str) : Prop :=
  ∃ r, processTurn co agent curMsg text st fm = Except.ok r ∧
    r.outcome = TurnOutcome.nextTurn na msg ∧ r.fm = fm ∧
    r.orch.handoffQueue = st.handoffQueue ∧
    r.orch.lastHandoff = st.lastHandoff ∧
    r.orch.missionStatus = st.missionStatus

/-- **C4**: a `PROJECT_COMPLETE` cue processed while the (post-update)
checklist has an unfinished item never completes the mission: the mission
status is unchanged (never `IDLE`), the checklist is kept (non-empty, not
cleared), the filesystem is untouched, and the loop continues with the
same agent and the corrective message enumerating exactly the incomplete
steps.  The branch hypotheses say the cue is reached: no file change was
proposed, no tool cue fired, and the first handoff cue (if any) does not
name the current agent. -/
theorem c4_completion_gate (co : Collab) (agent curMsg text : Str)
    (st : OrchState) (fm : FMState)
    (hpc : Cue.projectComplete ∈ extract_cues text)
    (hnoe : extractAllEdits text = [])
    (hnod : scanTagged "[DELETE_FILE:".data text 0 0 = [])
    (hnotool : serviceTool? co agent (extract_cues text) = none)
    (hns : noSelfHandoff agent (extract_cues text) = true)
    (hinc : isChecklistComplete (extractChecklistUpdates text
      (extractMissionChecklist text st.checklist
        st.missionDescription).2.1).1 = false) :
    ∃ r, processTurn co agent curMsg text st fm = Except.ok r ∧
      r.outcome = TurnOutcome.nextTurn agent (pcBlockedMsg
        (extractChecklistUpdates text (extractMissionChecklist text
          st.checklist st.missionDescription).2.1).1) ∧
      r.orch.missionStatus = st.missionStatus ∧
      r.orch.checklist = (extractChecklistUpdates text
        (extractMissionChecklist text st.checklist
          st.missionDescription).2.1).1 ∧
      r.orch.checklist ≠ [] ∧
      r.fm = fm := by
  have hclne : (extractChecklistUpdates text (extractMissionChecklist text
      st.checklist st.missionDescription).2.1).1 ≠ [] := by
    intro he
    rw [he] at hinc
    exact absurd hinc (by decide)
  rw [processTurn_eq, hnoe, hnod, registerEdits_nil, exceptMap_ok,
    turnTail_finish co agent curMsg text _ _ _ hnotool]
  cases hcf : (extract_cues text).filterMap handoffKey? with
  | nil =>
    rw [finishTurn_nil agent curMsg text _ _ _ hcf,
      afterHandoff_pc_blocked agent text _ _ _ _ hpc hinc]
    exact ⟨_, rfl, rfl, rfl, rfl, hclne, rfl⟩
  | cons k extras =>
    have hne : cueToAgent k ≠ agent := by
      unfold noSelfHandoff at hns
      rw [hcf] at hns
      exact of_decide_eq_true hns
    rw [finishTurn_cons agent curMsg text _ _ _ hcf hne,
      afterHandoff_pc_blocked agent text _ _ _ _ hpc hinc]
    exact ⟨_, rfl, rfl, rfl, rfl, hclne, rfl⟩

/-- **C5** (amended): in a turn with no proposed file change the action
cues are serviced in the fixed priority READ → FILE_SEARCH →
SUB_RESEARCH → READ_URL → SEARCH → RUN_COMMAND → RUN_TESTS: the
highest-priority branch present fires, the collaborator's result is
formatted into the new `current_message`, and the loop continues with
the same agent with no handoff, queue or disk change — *except* the
SUB_RESEARCH branch, which directs the synthesis to the "Summarizer"
agent rather than continuing with the agent that emitted the cue
(`c5_same_agent_counterexample`). -/
theorem c5_tool_priority (co : Collab) (agent curMsg text : Str)
    (st : OrchState) (fm : FMState)
    (hnoe : extractAllEdits text = [])
    (hnod : scanTagged "[DELETE_FILE:".data text 0 0 = []) :
    (∀ p, firstRead? (extract_cues text) = some p →
      ServedWith co agent curMsg text st fm agent (readMsg co p)) ∧
    (firstRead? (extract_cues text) = none →
      ∀ p, firstFileSearch? (extract_cues text) = some p →
      ServedWith co agent curMsg text st fm agent (fileSearchMsg co p)) ∧
    (firstRead? (extract_cues text) = none →
      firstFileSearch? (extract_cues text) = none →
      ∀ q qs, subResearchQueries (extract_cues text) = q :: qs →
      ServedWith co agent curMsg text st fm "Summarizer".data
        (subResearchMsg co (q :: qs))) ∧
    (firstRead? (extract_cues text) = none →
      firstFileSearch? (extract_cues text) = none →
      subResearchQueries (extract_cues text) = [] →
      ∀ u, firstReadUrl? (extract_cues text) = some u →
      ServedWith co agent curMsg text st fm agent (readUrlMsg co u)) ∧
    (firstRead? (extract_cues text) = none →
      firstFileSearch? (extract_cues text) = none →
      subResearchQueries (extract_cues text) = [] →
      firstReadUrl? (extract_cues text) = none →
      ∀ q, firstSearch? (extract_cues text) = some q →
      ServedWith co agent curMsg text st fm agent (searchMsg co q)) ∧
    (firstRead? (extract_cues text) = none →
      firstFileSearch? (extract_cues text) = none →
      subResearchQueries (extract_cues text) = [] →
      firstReadUrl? (extract_cues text) = none →
      firstSearch? (extract_cues text) = none →
      ∀ c, firstRunCommand? (extract_cues text) = some c →
      ServedWith co agent curMsg text st fm agent (runCmdMsg co c)) ∧
    (firstRead? (extract_cues text) = none →
      firstFileSearch? (extract_cues text) = none →
      subResearchQueries (extract_cues text) = [] →
      firstReadUrl? (extract_cues text) = none →
      firstSearch? (extract_cues text) = none →
      firstRunCommand? (extract_cues text) = none →
      ∀ c, firstRunTests? (extract_cues text) = some c →
      ServedWith co agent curMsg text st fm agent (runTestsMsg co c)) := by
  refine ⟨?_, ?_, ?_, ?_, ?_, ?_, ?_⟩
  · intro p hp
    exact processTurn_service co agent curMsg text st fm hnoe hnod
      (by unfold serviceTool?; rw [hp])
  · intro h1 p hp
    exact processTurn_service co agent curMsg text st fm hnoe hnod
      (by unfold serviceTool?; rw [h1, hp])
  · intro h1 h2 q qs hq
    exact processTurn_service co agent curMsg text st fm hnoe hnod
      (by unfold serviceTool?; rw [h1, h2, hq])
  · intro h1 h2 h3 u hu
    exact processTurn_service co agent curMsg text st fm hnoe hnod
      (by unfold serviceTool?; rw [h1, h2, h3, hu])
  · intro h1 h2 h3 h4 q hq
    exact processTurn_service co agent curMsg text st fm hnoe hnod
      (by unfold serviceTool?; rw [h1, h2, h3, h4, hq])
  · intro h1 h2 h3 h4 h5 c hc
    exact processTurn_service co agent curMsg text st fm hnoe hnod
      (by unfold serviceTool?; rw [h1, h2, h3, h4, h5, hc])
  · intro h1 h2 h3 h4 h5 h6 c hc
    exact processTurn_service co agent curMsg text st fm hnoe hnod
      (by unfold serviceTool?; rw [h1, h2, h3, h4, h5, h6, hc])

/-- **C8** (amended): when the turn proposes no file change, nothing in
the loop raises across the turn boundary — every collaborator call is
caught and converted — and in particular a failing command runner is
turned into the synthetic failure `current_message` fed back to the same
agent.  The no-file-change proviso is needed: `create_pending_change`
called on an edit cue whose path escapes the workspace raises a
`ValueError` that `process_message_stream` does not catch
(`c8_exception_counterexample`). -/
theorem c8_collaborator_conversion (co : Collab) (agent curMsg text : Str)
    (st : OrchState) (fm : FMState)
    (hnoe : extractAllEdits text = [])
    (hnod : scanTagged "[DELETE_FILE:".data text 0 0 = []) :
    (∃ r, processTurn co agent curMsg text st fm = Except.ok r) ∧
    (∀ cmd e, firstRead? (extract_cues text) = none →
      firstFileSearch? (extract_cues text) = none →
      subResearchQueries (extract_cues text) = [] →
      firstReadUrl? (extract_cues text) = none →
      firstSearch? (extract_cues text) = none →
      firstRunCommand? (extract_cues text) = some cmd →
      co.runCommand cmd = Except.error e →
      ServedWith co agent curMsg text st fm agent
        ("Failed to execute `".data ++ cmd ++ "`. Error: ".data ++ e)) := by
  constructor
  · rw [processTurn_eq, hnoe, hnod, registerEdits_nil, exceptMap_ok]
    exact ⟨_, rfl⟩
  · intro cmd e h1 h2 h3 h4 h5 hc herr
    have hmsg : runCmdMsg co cmd =
        "Failed to execute `".data ++ cmd ++ "`. Error: ".data ++ e := by
      unfold runCmdMsg
      rw [herr]
    have hsv : serviceTool? co agent (extract_cues text) =
        some (agent, runCmdMsg co cmd) := by
      unfold serviceTool?
      rw [h1, h2, h3, h4, h5, hc]
    have h0 := processTurn_service co agent curMsg text st fm hnoe hnod hsv
    rw [hmsg] at h0
    exact h0

/-- **C1** (amended): when every registration of the turn's proposed file
changes succeeds (`processTurn` returns `.ok`), a turn containing an
edit/create cue with its code block, or a delete cue, always ends in the
file-review pause: no handoff, tool, `DONE` or `PROJECT_COMPLETE` branch
runs, the pending set has grown by exactly one change per cue, the disk
is untouched, and the resume target — the first handoff cue's agent,
else the head of the handoff queue — is stashed in `last_handoff`.  The
success proviso is needed: a cue path that escapes the workspace makes
`create_pending_change` raise, and the turn never reaches the pause
(`c1_pause_counterexample`). -/
theorem c1_file_review_pause (co : Collab) (agent curMsg text : Str)
    (st : OrchState) (fm : FMState) (r : TurnResult)
    (hedits : extractAllEdits text ≠ [] ∨
      scanTagged "[DELETE_FILE:".data text 0 0 ≠ [])
    (hf : FreshIds fm)
    (h : processTurn co agent curMsg text st fm = Except.ok r) :
    r.outcome = TurnOutcome.pausedFileReview ∧
      r.orch.lastHandoff =
        (match (extract_cues text).filterMap handoffKey? with
         | k :: _ => some (cueToAgent k)
         | [] => st.handoffQueue.head?) ∧
      r.orch.handoffQueue = st.handoffQueue ∧
      r.orch.missionStatus = st.missionStatus ∧
      r.fm.pending.length = fm.pending.length +
        (extractAllEdits text).length +
        (scanTagged "[DELETE_FILE:".data text 0 0).length ∧
      r.fm.files = fm.files := by
  rw [processTurn_eq] at h
  cases hreg : registerEdits agent fm (extractAllEdits text)
      (scanTagged "[DELETE_FILE:".data text 0 0) with
  | error e =>
    rw [hreg, exceptMap_error] at h
    cases h
  | ok fm2 =>
    rw [hreg, exceptMap_ok,
      turnTail_pause co agent curMsg text _ _ _ _ _ hedits] at h
    obtain ⟨hlen, _, hfiles⟩ := registerEdits_fresh agent
      (extractAllEdits text) (scanTagged "[DELETE_FILE:".data text 0 0)
      fm fm2 hf hreg
    injection h with h2
    subst h2
    refine ⟨rfl, ?_, rfl, rfl, by simpa using hlen, hfiles⟩
    cases hcf : (extract_cues text).filterMap handoffKey? <;> rfl

theorem c4_completion_gate_witness :
    (Cue.projectComplete ∈ extract_cues "[PROJECT_COMPLETE]".data ∧
      extractAllEdits "[PROJECT_COMPLETE]".data = [] ∧
      scanTagged "[DELETE_FILE:".data "[PROJECT_COMPLETE]".data 0 0 = [] ∧
      serviceTool? trivialCollab "Senior Dev".data
        (extract_cues "[PROJECT_COMPLETE]".data) = none ∧
      noSelfHandoff "Senior Dev".data
        (extract_cues "[PROJECT_COMPLETE]".data) = true ∧
      isChecklistComplete (extractChecklistUpdates "[PROJECT_COMPLETE]".data
        (extractMissionChecklist "[PROJECT_COMPLETE]".data
          [⟨2, "Add tests".data, "JUNIOR".data, false⟩]
          "Build".data).2.1).1 = false) ∧
    (∃ r, processTurn trivialCollab "Senior Dev".data "".data
        "[PROJECT_COMPLETE]".data
        ⟨"IN_PROGRESS".data, [], none,
          [⟨2, "Add tests".data, "JUNIOR".data, false⟩], "Build".data⟩
        ⟨["ws".data], [], [], 0⟩ = Except.ok r ∧
      r.outcome = TurnOutcome.nextTurn "Senior Dev".data (pcBlockedMsg
        (extractChecklistUpdates "[PROJECT_COMPLETE]".data
          (extractMissionChecklist "[PROJECT_COMPLETE]".data
            [⟨2, "Add tests".data, "JUNIOR".data, false⟩]
            "Build".data).2.1).1) ∧
      r.orch.missionStatus =
        (⟨"IN_PROGRESS".data, [], none,
          [⟨2, "Add tests".data, "JUNIOR".data, false⟩], "Build".data⟩ :
            OrchState).missionStatus ∧
      r.orch.checklist = (extractChecklistUpdates "[PROJECT_COMPLETE]".data
        (extractMissionChecklist "[PROJECT_COMPLETE]".data
          [⟨2, "Add tests".data, "JUNIOR".data, false⟩]
          "Build".data).2.1).1 ∧
      r.orch.checklist ≠ [] ∧
      r.fm = ⟨["ws".data], [], [], 0⟩) :=
  ⟨⟨by decide, by decide, by decide, by decide, by decide, by decide⟩,
    c4_completion_gate trivialCollab "Senior Dev".data "".data
      "[PROJECT_COMPLETE]".data
      ⟨"IN_PROGRESS".data, [], none,
        [⟨2, "Add tests".data, "JUNIOR".data, false⟩], "Build".data⟩
      ⟨["ws".data], [], [], 0⟩
      (by decide) (by decide) (by decide) (by decide) (by decide)
      (by decide)⟩

theorem c5_tool_priority_witness :
    (extractAllEdits "[READ_FILE:notes.txt][RUN_COMMAND:ls]".data = [] ∧
      scanTagged "[DELETE_FILE:".data
        "[READ_FILE:notes.txt][RUN_COMMAND:ls]".data 0 0 = [] ∧
      firstRead? (extract_cues
        "[READ_FILE:notes.txt][RUN_COMMAND:ls]".data) =
        some "notes.txt".data) ∧
    ServedWith trivialCollab "Junior Dev".data "".data
      "[READ_FILE:notes.txt][RUN_COMMAND:ls]".data
      ⟨"IN_PROGRESS".data, [], none, [], []⟩ ⟨["ws".data], [], [], 0⟩
      "Junior Dev".data (readMsg trivialCollab "notes.txt".data) :=
  ⟨⟨by decide, by decide, by decide⟩,
    (c5_tool_priority trivialCollab "Junior Dev".data "".data
      "[READ_FILE:notes.txt][RUN_COMMAND:ls]".data
      ⟨"IN_PROGRESS".data, [], none, [], []⟩ ⟨["ws".data], [], [], 0⟩
      (by decide) (by decide)).1 "notes.txt".data (by decide)⟩

/-- **C5 counterexample**: the serviced branch does not always continue
with the agent that emitted the cue.  The Research Lead's
`[SUB_RESEARCH:q]` is serviced, and the following turn belongs to the
Summarizer. -/
theorem c5_same_agent_counterexample :
    ¬ (∀ (co : Collab) (agent curMsg text : Str) (st : OrchState)
        (fm : FMState) (na msg : Str) (r : TurnResult),
        processTurn co agent curMsg text st fm = Except.ok r →
        serviceTool? co agent (extract_cues text) = some (na, msg) →
        r.outcome = TurnOutcome.nextTurn na msg →
        na = agent) := by
  intro h
  have hx := h trivialCollab "Research Lead".data [] "[SUB_RESEARCH:q]".data
    ⟨"IN_PROGRESS".data, [], none, [], []⟩ ⟨["ws".data], [], [], 0⟩
    "Summarizer".data (subResearchMsg trivialCollab ["q".data])
    ⟨TurnOutcome.nextTurn "Summarizer".data
        (subResearchMsg trivialCollab ["q".data]),
      ⟨"IN_PROGRESS".data, [], none, [], []⟩, ⟨["ws".data], [], [], 0⟩⟩
    (by decide) (by decide) (by decide)
  revert hx
  decide

theorem c8_collaborator_conversion_witness :
    (extractAllEdits "[RUN_COMMAND:make all]".data = [] ∧
      scanTagged "[DELETE_FILE:".data "[RUN_COMMAND:make all]".data
        0 0 = [] ∧
      firstRead? (extract_cues "[RUN_COMMAND:make all]".data) = none ∧
      firstFileSearch? (extract_cues "[RUN_COMMAND:make all]".data) =
        none ∧
      subResearchQueries (extract_cues "[RUN_COMMAND:make all]".data) =
        [] ∧
      firstReadUrl? (extract_cues "[RUN_COMMAND:make all]".data) = none ∧
      firstSearch? (extract_cues "[RUN_COMMAND:make all]".data) = none ∧
      firstRunCommand? (extract_cues "[RUN_COMMAND:make all]".data) =
        some "make all".data ∧
      Collab.runCommand
        { trivialCollab with
            runCommand := fun _ => Except.error "boom".data }
        "make all".data = Except.error "boom".data) ∧
    ServedWith
      { trivialCollab with
          runCommand := fun _ => Except.error "boom".data }
      "Unit Tester".data "".data "[RUN_COMMAND:make all]".data
      ⟨"IN_PROGRESS".data, [], none, [], []⟩ ⟨["ws".data], [], [], 0⟩
      "Unit Tester".data
      ("Failed to execute `".data ++ "make all".data ++
        "`. Error: ".data ++ "boom".data) :=
  ⟨⟨by decide, by decide, by decide, by decide, by decide, by decide,
    by decide, by decide, by decide⟩,
    (c8_collaborator_conversion
      { trivialCollab with
          runCommand := fun _ => Except.error "boom".data }
      "Unit Tester".data "".data "[RUN_COMMAND:make all]".data
      ⟨"IN_PROGRESS".data, [], none, [], []⟩ ⟨["ws".data], [], [], 0⟩
      (by decide) (by decide)).2 "make all".data "boom".data
      (by decide) (by decide) (by decide) (by decide) (by decide)
      (by decide) (by decide)⟩

/-- **C8 counterexample**: a `create_pending_change` failure does escape
the turn.  A `CREATE_FILE` cue whose path resolves outside the workspace
makes `_sanitize_path` raise `ValueError`, and `process_message_stream`
has no handler around the registration loop. -/
theorem c8_exception_counterexample :
    ¬ (∀ (co : Collab) (agent curMsg text : Str) (st : OrchState)
        (fm : FMState),
        ∃ r, processTurn co agent curMsg text st fm = Except.ok r) := by
  intro h
  obtain ⟨r, hr⟩ := h trivialCollab "Junior Dev".data []
    "[CREATE_FILE:../../evil.py]\n```python\nx = 1\n```".data
    ⟨"IN_PROGRESS".data, [], none, [], []⟩ ⟨["ws".data], [], [], 0⟩
  have he : processTurn trivialCollab "Junior Dev".data []
      "[CREATE_FILE:../../evil.py]\n```python\nx = 1\n```".data
      ⟨"IN_PROGRESS".data, [], none, [], []⟩ ⟨["ws".data], [], [], 0⟩ =
      Except.error "Path must be within /ws".data := by decide
  rw [he] at hr
  cases hr

theorem c1_file_review_pause_witness :
    ((extractAllEdits
        "[CREATE_FILE:new.md]\n```\nhello\n```[→JUNIOR][DELETE_FILE:a.py]".data
        ≠ [] ∨
      scanTagged "[DELETE_FILE:".data
        "[CREATE_FILE:new.md]\n```\nhello\n```[→JUNIOR][DELETE_FILE:a.py]".data
        0 0 ≠ []) ∧
      FreshIds ⟨["ws".data], [(["ws".data, "a.py".data], "old".data)],
        [], 0⟩ ∧
      processTurn trivialCollab "Senior Dev".data "".data
        "[CREATE_FILE:new.md]\n```\nhello\n```[→JUNIOR][DELETE_FILE:a.py]".data
        ⟨"IN_PROGRESS".data, ["Unit Tester".data], none, [], []⟩
        ⟨["ws".data], [(["ws".data, "a.py".data], "old".data)], [], 0⟩ =
        Except.ok
          ⟨TurnOutcome.pausedFileReview,
            ⟨"IN_PROGRESS".data, ["Unit Tester".data],
              some "Junior Dev".data, [], []⟩,
            ⟨["ws".data], [(["ws".data, "a.py".data], "old".data)],
              [(0, ⟨"new.md".data, "create".data, "hello".data, none,
                some "Senior Dev".data⟩),
               (1, ⟨"a.py".data, "delete".data, [], some "old".data,
                some "Senior Dev".data⟩)], 2⟩⟩) ∧
    ((⟨TurnOutcome.pausedFileReview,
        ⟨"IN_PROGRESS".data, ["Unit Tester".data],
          some "Junior Dev".data, [], []⟩,
        ⟨["ws".data], [(["ws".data, "a.py".data], "old".data)],
          [(0, ⟨"new.md".data, "create".data, "hello".data, none,
            some "Senior Dev".data⟩),
           (1, ⟨"a.py".data, "delete".data, [], some "old".data,
            some "Senior Dev".data⟩)], 2⟩⟩ :
        TurnResult).outcome = TurnOutcome.pausedFileReview ∧
      (⟨TurnOutcome.pausedFileReview,
        ⟨"IN_PROGRESS".data, ["Unit Tester".data],
          some "Junior Dev".data, [], []⟩,
        ⟨["ws".data], [(["ws".data, "a.py".data], "old".data)],
          [(0, ⟨"new.md".data, "create".data, "hello".data, none,
            some "Senior Dev".data⟩),
           (1, ⟨"a.py".data, "delete".data, [], some "old".data,
            some "Senior Dev".data⟩)], 2⟩⟩ :
        TurnResult).fm.pending.length =
        (⟨["ws".data], [(["ws".data, "a.py".data], "old".data)], [], 0⟩ :
          FMState).pending.length +
        (extractAllEdits
          "[CREATE_FILE:new.md]\n```\nhello\n```[→JUNIOR][DELETE_FILE:a.py]".data).length
        + (scanTagged "[DELETE_FILE:".data
          "[CREATE_FILE:new.md]\n```\nhello\n```[→JUNIOR][DELETE_FILE:a.py]".data
          0 0).length) :=
  ⟨⟨by decide, by decide, by decide⟩,
    let h := c1_file_review_pause trivialCollab "Senior Dev".data "".data
      "[CREATE_FILE:new.md]\n```\nhello\n```[→JUNIOR][DELETE_FILE:a.py]".data
      ⟨"IN_PROGRESS".data, ["Unit Tester".data], none, [], []⟩
      ⟨["ws".data], [(["ws".data, "a.py".data], "old".data)], [], 0⟩
      ⟨TurnOutcome.pausedFileReview,
        ⟨"IN_PROGRESS".data, ["Unit Tester".data],
          some "Junior Dev".data, [], []⟩,
        ⟨["ws".data], [(["ws".data, "a.py".data], "old".data)],
          [(0, ⟨"new.md".data, "create".data, "hello".data, none,
            some "Senior Dev".data⟩),
           (1, ⟨"a.py".data, "delete".data, [], some "old".data,
            some "Senior Dev".data⟩)], 2⟩⟩
      (by decide) (by decide) (by decide)
    ⟨h.1, h.2.2.2.2.1⟩⟩

/-- **C1 counterexample**: the pause is not unconditional.  With an
`[EDIT_FILE:../x.py]` cue the path sanitiser raises before the pause is
reached, and the turn ends in an uncaught exception rather than the
awaiting-approval state. -/
theorem c1_pause_counterexample :
    ¬ (∀ (co : Collab) (agent curMsg text : Str) (st : OrchState)
        (fm : FMState),
        extractAllEdits text ≠ [] ∨
          scanTagged "[DELETE_FILE:".data text 0 0 ≠ [] →
        ∃ r, processTurn co agent curMsg text st fm = Except.ok r ∧
          r.outcome = TurnOutcome.pausedFileReview) := by
  intro h
  obtain ⟨r, hr, _⟩ := h trivialCollab "Junior Dev".data []
    "[EDIT_FILE:../x.py]\n```python\npass\n```".data
    ⟨"IN_PROGRESS".data, [], none, [], []⟩ ⟨["ws".data], [], [], 0⟩
    (by decide)
  have he : processTurn trivialCollab "Junior Dev".data []
      "[EDIT_FILE:../x.py]\n```python\npass\n```".data
      ⟨"IN_PROGRESS".data, [], none, [], []⟩ ⟨["ws".data], [], [], 0⟩ =
      Except.error "Path must be within /ws".data := by decide
  rw [he] at hr
  cases hr

/-- **C9** (amended).  When the user approves, the last stored message
signalled `[DONE]` *and does not also contain `[PROJECT_COMPLETE]`*, no
handoff target is stashed, the queue is empty, and a mission checklist
exists that is not complete, `handle_approval_signal` resumes with the
lead agent "Senior Dev" and the review-and-continue message.  The
`[PROJECT_COMPLETE]` exclusion is needed: that substring is checked
first and ends the mission with no next agent
(`c9_approval_counterexample`). -/
theorem c9_approval_resume (st : OrchState) (lastAgent body : Str)
    (feedback : Option Str)
    (hdone : containsSub "[DONE]".data body = true)
    (hnpc : containsSub "[PROJECT_COMPLETE]".data body = false)
    (hlh : st.lastHandoff = none)
    (hq : st.handoffQueue = [])
    (hcl : st.checklist ≠ [])
    (hinc : isChecklistComplete st.checklist = false) :
    handleApprovalSignal st (some (lastAgent, body)) true feedback =
      ((some "Senior Dev".data,
        some ("The user approved the previous step. The mission" ++
          " checklist is still in progress. Please review the" ++
          " status and trigger the next action.").data),
       { st with lastHandoff := none }) := by
  obtain ⟨ms, q, lh, cl, d⟩ := st
  simp only at hlh hq hcl hinc
  subst hlh
  subst hq
  simp only [handleApprovalSignal, hdone, hnpc, Bool.false_eq_true,
    if_false, if_true]
  rw [if_pos ⟨hcl, hinc⟩]

theorem c9_approval_resume_witness :
    (containsSub "[DONE]".data "all work finished [DONE]".data = true ∧
      containsSub "[PROJECT_COMPLETE]".data
        "all work finished [DONE]".data = false ∧
      (⟨"IN_PROGRESS".data, [], none,
        [⟨1, "Build".data, "SENIOR".data, true⟩,
         ⟨2, "Test".data, "JUNIOR".data, false⟩], []⟩ :
          OrchState).lastHandoff = none ∧
      (⟨"IN_PROGRESS".data, [], none,
        [⟨1, "Build".data, "SENIOR".data, true⟩,
         ⟨2, "Test".data, "JUNIOR".data, false⟩], []⟩ :
          OrchState).handoffQueue = [] ∧
      (⟨"IN_PROGRESS".data, [], none,
        [⟨1, "Build".data, "SENIOR".data, true⟩,
         ⟨2, "Test".data, "JUNIOR".data, false⟩], []⟩ :
          OrchState).checklist ≠ [] ∧
      isChecklistComplete
        (⟨"IN_PROGRESS".data, [], none,
          [⟨1, "Build".data, "SENIOR".data, true⟩,
           ⟨2, "Test".data, "JUNIOR".data, false⟩], []⟩ :
            OrchState).checklist = false) ∧
    handleApprovalSignal
        (⟨"IN_PROGRESS".data, [], none,
          [⟨1, "Build".data, "SENIOR".data, true⟩,
           ⟨2, "Test".data, "JUNIOR".data, false⟩], []⟩ : OrchState)
        (some ("Junior Dev".data, "all work finished [DONE]".data))
        true none =
      ((some "Senior Dev".data,
        some ("The user approved the previous step. The mission" ++
          " checklist is still in progress. Please review the" ++
          " status and trigger the next action.").data),
       { (⟨"IN_PROGRESS".data, [], none,
          [⟨1, "Build".data, "SENIOR".data, true⟩,
           ⟨2, "Test".data, "JUNIOR".data, false⟩], []⟩ : OrchState) with
            lastHandoff := none }) :=
  ⟨⟨by decide, by decide, by decide, by decide, by decide, by decide⟩,
    c9_approval_resume
      ⟨"IN_PROGRESS".data, [], none,
        [⟨1, "Build".data, "SENIOR".data, true⟩,
         ⟨2, "Test".data, "JUNIOR".data, false⟩], []⟩
      "Junior Dev".data "all work finished [DONE]".data none
      (by decide) (by decide) (by decide) (by decide) (by decide)
      (by decide)⟩

/-- **C9 counterexample**: without excluding `[PROJECT_COMPLETE]` the
claim is false.  A last message containing both `[DONE]` and
`[PROJECT_COMPLETE]` hits the project-complete check first, and
`handle_approval_signal` returns no next agent instead of "Senior
Dev". -/
theorem c9_approval_counterexample :
    ¬ (∀ (st : OrchState) (lastAgent body : Str) (feedback : Option Str),
        containsSub "[DONE]".data body = true →
        st.lastHandoff = none → st.handoffQueue = [] →
        st.checklist ≠ [] → isChecklistComplete st.checklist = false →
        (handleApprovalSignal st (some (lastAgent, body)) true
          feedback).1.1 = some "Senior Dev".data) := by
  intro h
  have hx := h
    ⟨"IN_PROGRESS".data, [], none,
      [⟨1, "Build".data, "SENIOR".data, false⟩], []⟩
    "Junior Dev".data "[DONE] [PROJECT_COMPLETE]".data none
    (by decide) rfl rfl (by decide) (by decide)
  revert hx
  decide

end DevSquad
